import Mathlib

/-!
# Ovum lexer: a shallow embedding of `src/lib/lexer`

The source buffer (`std::string_view`) is a `List Char`, one `Char` per byte of the
source.  `std::string` lexemes are `List Char` as well.  The `int` counters `line_`,
`col_`, `token_col_` and the `size_t` offsets are natural numbers: the C++ increments are
only defined below `INT_MAX`, that is for buffers shorter than 2 GiB.  A thrown
`LexerError` is the `Except.error` carrying the message of the exception as `what()`
returns it, a C string.  Of the messages the strategies build, only the one of the default
strategy can hold a NUL byte: the others are fixed texts, or end with a text of digits,
a dot, an exponent marker and a sign.

`std::stold` is a library routine whose range is platform dependent; whether it accepts a
text is the parameter `stold_ok` of the number strategy, and a `FloatValue` records the
text that was converted.
-/

namespace Ovum

deriving instance DecidableEq for Except

/-- The sentinel `'\0'` returned by `peek`, `advance` and `current_char`. -/
def NUL : Char := Char.ofNat 0

/-! ## Token model (`tokens/`, `values/`) -/

/-- Mirror of `enum class TokenType`. -/
inductive TokenType where
  | IDENT | KEYWORD | INT | FLOAT | STRING | CHAR | BOOL | OPERATOR | PUNCT | NEWLINE
  | COMMENT | EOF_T
  deriving DecidableEq, Repr

/-- Mirror of the `Value` hierarchy; `FloatValue` holds the text given to `std::stold`. -/
inductive Value where
  | IntValue (v : Int)
  | FloatValue (text : List Char)
  | StringValue (s : List Char)
  | CharValue (c : Char)
  | BoolValue (b : Bool)
  deriving DecidableEq, Repr

/-- A token: its `type()`, its `lexeme()`, the `Value` of a `LiteralToken`, and the
`line()` and `column()` of the `Token` base class. -/
structure Token where
  type : TokenType
  lexeme : List Char
  value : Option Value
  line : Nat
  column : Nat
  deriving DecidableEq, Repr

namespace TokenFactory

def make_ident (lex : List Char) (line col : Nat) : Token :=
  ⟨TokenType.IDENT, lex, none, line, col⟩

def make_keyword (lex : List Char) (line col : Nat) : Token :=
  ⟨TokenType.KEYWORD, lex, none, line, col⟩

def make_operator (lex : List Char) (line col : Nat) : Token :=
  ⟨TokenType.OPERATOR, lex, none, line, col⟩

def make_punct (ch : Char) (line col : Nat) : Token :=
  ⟨TokenType.PUNCT, [ch], none, line, col⟩

/-- `NewlineToken` stores the two-character placeholder backslash, `n` as its lexeme. -/
def make_newline (line col : Nat) : Token :=
  ⟨TokenType.NEWLINE, ['\\', 'n'], none, line, col⟩

def make_comment (text : List Char) (line col : Nat) : Token :=
  ⟨TokenType.COMMENT, text, none, line, col⟩

def make_eof (line col : Nat) : Token :=
  ⟨TokenType.EOF_T, [], none, line, col⟩

def make_int_literal (raw : List Char) (v : Int) (line col : Nat) : Token :=
  ⟨TokenType.INT, raw, some (Value.IntValue v), line, col⟩

def make_float_literal (raw : List Char) (line col : Nat) : Token :=
  ⟨TokenType.FLOAT, raw, some (Value.FloatValue raw), line, col⟩

def make_string_literal (raw s : List Char) (line col : Nat) : Token :=
  ⟨TokenType.STRING, raw, some (Value.StringValue s), line, col⟩

def make_char_literal (raw : List Char) (c : Char) (line col : Nat) : Token :=
  ⟨TokenType.CHAR, raw, some (Value.CharValue c), line, col⟩

def make_bool_literal (raw : List Char) (b : Bool) (line col : Nat) : Token :=
  ⟨TokenType.BOOL, raw, some (Value.BoolValue b), line, col⟩

end TokenFactory

/-! ## Lookup tables (`utils.cpp`) -/

def keyword_set : List (List Char) :=
  ["fun", "class", "interface", "var", "override", "pure", "if", "else",
   "for", "while", "return", "unsafe", "val", "static", "public", "private",
   "implements", "as", "is", "null", "true", "false", "typealias", "destructor",
   "call", "#import", "#define", "#undef", "#ifdef", "#ifndef", "#else", "#endif"].map
    String.toList

def multi_ops_set : List (List Char) :=
  ["==", "!=", "<=", ">=", "&&", "||", "?:", "?.", "::", ":="].map String.toList

/-! ## Cursor (`Lexer.hpp`, `Lexer.cpp`) -/

/-- The mutable fields of `class Lexer`; the dispatch table is `register_defaults`. -/
structure Lexer where
  src_ : List Char
  keep_comments_ : Bool
  start_ : Nat
  current_ : Nat
  line_ : Nat
  col_ : Nat
  token_col_ : Nat
  deriving DecidableEq, Repr

namespace Lexer

/-- The constructor `Lexer::Lexer(src, keep_comments)`. -/
def init (src : List Char) (keep_comments : Bool) : Lexer :=
  ⟨src, keep_comments, 0, 0, 1, 1, 1⟩

def is_at_end (lx : Lexer) : Bool :=
  decide (lx.current_ ≥ lx.src_.length)

def peek (lx : Lexer) (offset : Nat) : Char :=
  let idx := lx.current_ + offset
  if idx ≥ lx.src_.length then NUL else lx.src_.getD idx NUL

def current_char (lx : Lexer) : Char :=
  if lx.current_ = 0 then NUL else lx.src_.getD (lx.current_ - 1) NUL

/-- `Lexer::advance`: the character returned and the cursor afterwards. -/
def advance (lx : Lexer) : Char × Lexer :=
  if lx.is_at_end then (NUL, lx)
  else
    let c := lx.src_.getD lx.current_ NUL
    if c = '\n' then (c, { lx with current_ := lx.current_ + 1, line_ := lx.line_ + 1, col_ := 1 })
    else (c, { lx with current_ := lx.current_ + 1, col_ := lx.col_ + 1 })

/-- The first loop of `retreat_one`: `l` starts at 1 and counts the newlines in
`src_[0 .. cur)`. -/
def retreat_line (src : List Char) (cur : Nat) : Nat :=
  (List.range cur).foldl (fun l i => if src.getD i NUL = '\n' then l + 1 else l) 1

/-- The second loop of `retreat_one`, entered with loop variable `i` and `col = 1`. -/
def retreat_col (src : List Char) (cur : Nat) : Nat → Nat
  | 0 => 1
  | i + 1 =>
    if src.getD i NUL = '\n' then cur - (i + 1) + 1
    else if i + 1 = 1 then cur
    else retreat_col src cur i

def retreat_one (lx : Lexer) : Lexer :=
  if lx.current_ = 0 then lx
  else
    let cur := lx.current_ - 1
    { lx with current_ := cur, line_ := retreat_line lx.src_ cur,
              col_ := retreat_col lx.src_ cur cur }

/-- The loop of `consume_while`; `fuel` bounds the iterations by the characters left. -/
def consume_while_loop (pred : Char → Bool) : Nat → Lexer → List Char → Lexer × List Char
  | 0, lx, out => (lx, out)
  | fuel + 1, lx, out =>
    if !lx.is_at_end && pred (lx.peek 0) then
      consume_while_loop pred fuel lx.advance.2 (out ++ [lx.advance.1])
    else (lx, out)

def consume_while (lx : Lexer) (out : List Char) (pred : Char → Bool) : Lexer × List Char :=
  consume_while_loop pred (lx.src_.length - lx.current_) lx out

def raw_lexeme (lx : Lexer) : List Char :=
  if lx.current_ ≥ lx.start_ then (lx.src_.drop lx.start_).take (lx.current_ - lx.start_)
  else []

/-- The two assignments that open an iteration of `tokenize`: `start_ = current_;
token_col_ = col_;`. -/
def mark (lx : Lexer) : Lexer :=
  { lx with start_ := lx.current_, token_col_ := lx.col_ }

def is_keyword (s : List Char) : Bool := keyword_set.contains s

def is_multiop (s : List Char) : Bool := multi_ops_set.contains s

end Lexer

/-- The result of a scanning strategy: the cursor afterwards and the `OptToken`, or the
message of the `LexerError` thrown. -/
abbrev ScanResult := Except String (Lexer × Option Token)

/-- `what()` of a `LexerError` built from the `std::string` `msg`: `std::runtime_error`
gives its message out as a C string, the characters of `msg` before its first NUL. -/
def LexerError.what (msg : List Char) : String :=
  String.mk (msg.takeWhile (fun c => decide (c ≠ NUL)))

/-! ## Scanning strategies (`handlers/`) -/

namespace WhitespaceHandler

def loop : Nat → Lexer → Lexer
  | 0, lx => lx
  | fuel + 1, lx =>
    if lx.is_at_end then lx
    else if lx.peek 0 = ' ' ∨ lx.peek 0 = '\t' ∨ lx.peek 0 = '\r' then loop fuel lx.advance.2
    else lx

def scan (lx : Lexer) : ScanResult :=
  .ok (loop (lx.src_.length - lx.current_) lx, none)

end WhitespaceHandler

namespace NewlineHandler

def scan (lx : Lexer) : ScanResult :=
  .ok (lx, some (TokenFactory.make_newline lx.line_ lx.token_col_))

end NewlineHandler

namespace IdentifierHandler

/-- The predicate given to `consume_while`: `std::isalnum` in the "C" locale, or `_`. -/
def is_ident_char (ch : Char) : Bool := ch.isAlphanum || ch = '_'

def scan (lx : Lexer) : ScanResult :=
  let r := lx.consume_while [lx.current_char] is_ident_char
  let lx := r.1
  let s := r.2
  if Lexer.is_keyword s then
    if s = "true".toList ∨ s = "false".toList then
      .ok (lx, some (TokenFactory.make_bool_literal s (decide (s = "true".toList))
        lx.line_ lx.token_col_))
    else .ok (lx, some (TokenFactory.make_keyword s lx.line_ lx.token_col_))
  else if s = "xor".toList then
    .ok (lx, some (TokenFactory.make_operator s lx.line_ lx.token_col_))
  else .ok (lx, some (TokenFactory.make_ident s lx.line_ lx.token_col_))

end IdentifierHandler

namespace NumberHandler

def is_digit_char (c : Char) : Bool := c.isDigit

/-- The decimal value of a run of ASCII digits. -/
def decimal_value (raw : List Char) : Nat :=
  raw.foldl (fun v c => 10 * v + (c.toNat - '0'.toNat)) 0

/-- `std::stoll` on a run of ASCII digits, the only texts `NumberHandler` passes to it:
`none` stands for the exception (`invalid_argument` on the empty run, `out_of_range` above
`LLONG_MAX`). -/
def stoll (raw : List Char) : Option Int :=
  if raw = [] then none
  else if decimal_value raw ≤ 2 ^ 63 - 1 then some (Int.ofNat (decimal_value raw))
  else none

/-- The end of the exponent suffix: `if (!is_digit_char(lx.peek())) throw ...;` and the
`consume_while` of the digits. -/
def exponent_digits (lx : Lexer) (raw : List Char) : Except String (Lexer × List Char) :=
  if !is_digit_char (lx.peek 0) then .error "Malformed exponent"
  else .ok (lx.consume_while raw Char.isDigit)

/-- The exponent suffix, entered when `peek()` is `e` or `E`: the marker, an optional
sign, and at least one digit. The source repeats this block in its three float branches. -/
def exponent (lx : Lexer) (raw : List Char) : Except String (Lexer × List Char) :=
  let lx1 := lx.advance.2
  let raw1 := raw ++ [lx.advance.1]
  if lx1.peek 0 = '+' ∨ lx1.peek 0 = '-' then
    exponent_digits lx1.advance.2 (raw1 ++ [lx1.advance.1])
  else exponent_digits lx1 raw1

/-- The `try { v = std::stold(raw); } catch (...)` block followed by the `return`. -/
def float_literal (stold_ok : List Char → Bool) (lx : Lexer) (raw : List Char) : ScanResult :=
  if stold_ok raw then .ok (lx, some (TokenFactory.make_float_literal raw lx.line_ lx.token_col_))
  else .error ("Malformed float literal: " ++ String.mk raw)

/-- The body of an `if (lx.peek() == 'e' || lx.peek() == 'E')`: exponent, then the float. -/
def exponent_float (stold_ok : List Char → Bool) (lx : Lexer) (raw : List Char) : ScanResult :=
  match exponent lx raw with
  | .error e => .error e
  | .ok r2 => float_literal stold_ok r2.1 r2.2

/-- The optional exponent and the float literal that end the two branches with a dot. -/
def fraction_tail (stold_ok : List Char → Bool) (lx : Lexer) (raw : List Char) : ScanResult :=
  if lx.peek 0 = 'e' ∨ lx.peek 0 = 'E' then exponent_float stold_ok lx raw
  else float_literal stold_ok lx raw

def scan (stold_ok : List Char → Bool) (lx : Lexer) : ScanResult :=
  let first := lx.current_char
  if first = '.' then
    let r := lx.consume_while ['.'] Char.isDigit
    fraction_tail stold_ok r.1 r.2
  else
    let r := lx.retreat_one.consume_while [] Char.isDigit
    if r.1.peek 0 = '.' ∧ (r.1.peek 1).isDigit = true then
      let r1 := r.1.advance.2.consume_while (r.2 ++ [r.1.advance.1]) Char.isDigit
      fraction_tail stold_ok r1.1 r1.2
    else if r.1.peek 0 = 'e' ∨ r.1.peek 0 = 'E' then exponent_float stold_ok r.1 r.2
    else
      match stoll r.2 with
      | none => .error ("Malformed integer literal: " ++ String.mk r.2)
      | some vi => .ok (r.1, some (TokenFactory.make_int_literal r.2 vi r.1.line_ r.1.token_col_))

end NumberHandler

namespace StringHandler

/-- The `switch (e)` of the string strategy. -/
def decode (e : Char) : Char :=
  if e = 'n' then '\n'
  else if e = 't' then '\t'
  else if e = 'r' then '\r'
  else if e = '\\' then '\\'
  else if e = '"' then '"'
  else e

/-- The `while (!lx.is_at_end())` loop: cursor, `raw` and `out` on leaving it. -/
def loop : Nat → Lexer → List Char → List Char → Except String (Lexer × List Char × List Char)
  | 0, lx, raw, out => .ok (lx, raw, out)
  | fuel + 1, lx, raw, out =>
    if lx.is_at_end then .ok (lx, raw, out)
    else
      let c := lx.advance.1
      let lx1 := lx.advance.2
      if c = '"' then .ok (lx1, raw ++ [c], out)
      else if c = '\\' then
        let e := lx1.advance.1
        loop fuel lx1.advance.2 (raw ++ [c] ++ [e]) (out ++ [decode e])
      else if c = '\n' then .error "Unterminated string literal (newline inside)"
      else loop fuel lx1 (raw ++ [c]) (out ++ [c])

def scan (lx : Lexer) : ScanResult :=
  match loop (lx.src_.length - lx.current_) lx ['"'] [] with
  | .error e => .error e
  | .ok (lx1, raw, out) =>
    .ok (lx1, some (TokenFactory.make_string_literal raw out lx1.line_ lx1.token_col_))

end StringHandler

namespace CharHandler

/-- The `switch (e)` of the char strategy. -/
def decode (e : Char) : Char :=
  if e = 'n' then '\n'
  else if e = 't' then '\t'
  else if e = '\\' then '\\'
  else if e = '\'' then '\''
  else e

/-- The end of the char strategy: the mandatory closing apostrophe. -/
def close (lx : Lexer) (raw : List Char) (val : Char) : ScanResult :=
  if lx.peek 0 = '\'' then
    let lx1 := lx.advance.2
    .ok (lx1, some (TokenFactory.make_char_literal (raw ++ ['\'']) val lx1.line_ lx1.token_col_))
  else .error "Unterminated char literal"

def scan (lx : Lexer) : ScanResult :=
  if lx.peek 0 = '\\' then
    let e := lx.advance.2.advance.1
    close lx.advance.2.advance.2 ['\'', '\\', e] (decode e)
  else
    let c := lx.advance.1
    close lx.advance.2 ['\'', c] c

end CharHandler

namespace SlashHandler

/-- The loop of the line-comment branch. -/
def line_loop : Nat → Lexer → List Char → Lexer × List Char
  | 0, lx, txt => (lx, txt)
  | fuel + 1, lx, txt =>
    if !lx.is_at_end && decide (lx.peek 0 ≠ '\n') then
      line_loop fuel lx.advance.2 (txt ++ [lx.advance.1])
    else (lx, txt)

/-- The loop of the block-comment branch: cursor, `txt` and `closed` on leaving it. -/
def block_loop : Nat → Lexer → List Char → Lexer × List Char × Bool
  | 0, lx, txt => (lx, txt, false)
  | fuel + 1, lx, txt =>
    if lx.is_at_end then (lx, txt, false)
    else
      let c := lx.advance.1
      let lx1 := lx.advance.2
      if c = '*' ∧ lx1.peek 0 = '/' then (lx1.advance.2, txt, true)
      else block_loop fuel lx1 (txt ++ [c])

def scan (lx : Lexer) : ScanResult :=
  if lx.peek 0 = '/' then
    let r := line_loop (lx.src_.length - lx.current_) lx []
    if r.1.keep_comments_ then
      .ok (r.1, some (TokenFactory.make_comment r.2 r.1.line_ r.1.token_col_))
    else .ok (r.1, none)
  else if lx.peek 0 = '*' then
    let lx1 := lx.advance.2
    let r := block_loop (lx1.src_.length - lx1.current_) lx1 []
    if !r.2.2 then .error "Unterminated block comment"
    else if r.1.keep_comments_ then
      .ok (r.1, some (TokenFactory.make_comment r.2.1 r.1.line_ r.1.token_col_))
    else .ok (r.1, none)
  else .ok (lx, some (TokenFactory.make_operator ['/'] lx.line_ lx.token_col_))

end SlashHandler

namespace OperatorHandler

def scan (lx : Lexer) : ScanResult :=
  let op := [lx.current_char]
  let p := lx.peek 0
  if p ≠ NUL then
    let two := op ++ [p]
    if Lexer.is_multiop two then
      let lx1 := lx.advance.2
      .ok (lx1, some (TokenFactory.make_operator two lx1.line_ lx1.token_col_))
    else .ok (lx, some (TokenFactory.make_operator op lx.line_ lx.token_col_))
  else .ok (lx, some (TokenFactory.make_operator op lx.line_ lx.token_col_))

end OperatorHandler

namespace PunctHandler

def scan (lx : Lexer) : ScanResult :=
  .ok (lx, some (TokenFactory.make_punct lx.current_char lx.line_ lx.token_col_))

end PunctHandler

namespace DefaultHandler

def scan (lx : Lexer) : ScanResult :=
  .error (LexerError.what ("Unexpected character: ".toList ++ [lx.current_char]))

end DefaultHandler

/-! ## Dispatch table and top-level loop (`Lexer.cpp`) -/

/-- The concrete `Handler` classes an entry of `handlers_` can point to. -/
inductive HandlerKind where
  | Whitespace | Newline | Identifier | Number | String | Char | Slash | Operator | Punct
  deriving DecidableEq, Repr

/-- The array `handlers_`: `none` is the null pointer left by `reset()`. -/
abbrev HandlerTable := Char → Option HandlerKind

/-- `set_handler(c, h)`: `handlers_[c] = h`, replacing what was there. -/
def set_handler (tbl : HandlerTable) (c : Char) (h : HandlerKind) : HandlerTable :=
  fun x => if x = c then some h else tbl x

/-- A loop `for (c : cs) set_handler(c, h)`. -/
def set_handlers (tbl : HandlerTable) (cs : List Char) (h : HandlerKind) : HandlerTable :=
  cs.foldl (fun t c => set_handler t c h) tbl

/-- The characters visited by `for (unsigned char c = lo; c <= hi; ++c)`. -/
def char_range (lo hi : Char) : List Char :=
  (List.range (hi.toNat + 1 - lo.toNat)).map (fun i => Char.ofNat (lo.toNat + i))

/-- `Lexer::register_defaults`, statement by statement and in the order of the source. -/
def register_defaults : HandlerTable :=
  let t0 : HandlerTable := fun _ => none
  let t1 := set_handler t0 ' ' HandlerKind.Whitespace
  let t2 := set_handler t1 '\t' HandlerKind.Whitespace
  let t3 := set_handler t2 '\r' HandlerKind.Whitespace
  let t4 := set_handler t3 '\n' HandlerKind.Newline
  let t5 := set_handlers t4 (char_range 'a' 'z') HandlerKind.Identifier
  let t6 := set_handlers t5 (char_range 'A' 'Z') HandlerKind.Identifier
  let t7 := set_handler t6 '_' HandlerKind.Identifier
  let t8 := set_handlers t7 (char_range '0' '9') HandlerKind.Number
  let t9 := set_handler t8 '.' HandlerKind.Number
  let t10 := set_handler t9 '"' HandlerKind.String
  let t11 := set_handler t10 '\'' HandlerKind.Char
  let t12 := set_handler t11 '/' HandlerKind.Slash
  let t13 := set_handlers t12 "+-*/%<>=!&|^~?:.".toList HandlerKind.Operator
  set_handlers t13 ",;:()\x7b\x7d[]".toList HandlerKind.Punct

/-- The virtual call `h->scan(*this)`, `h` being the table entry or `default_handler_`. -/
def Handler.scan (stold_ok : List Char → Bool) : Option HandlerKind → Lexer → ScanResult
  | none => DefaultHandler.scan
  | some HandlerKind.Whitespace => WhitespaceHandler.scan
  | some HandlerKind.Newline => NewlineHandler.scan
  | some HandlerKind.Identifier => IdentifierHandler.scan
  | some HandlerKind.Number => NumberHandler.scan stold_ok
  | some HandlerKind.String => StringHandler.scan
  | some HandlerKind.Char => CharHandler.scan
  | some HandlerKind.Slash => SlashHandler.scan
  | some HandlerKind.Operator => OperatorHandler.scan
  | some HandlerKind.Punct => PunctHandler.scan

/-- One iteration of the loop of `Lexer::tokenize`, entered when `!is_at_end()`: mark the
token start, advance, dispatch on the consumed character, run the strategy. -/
def tokenize_step (stold_ok : List Char → Bool) (lx : Lexer) : ScanResult :=
  Handler.scan stold_ok (register_defaults lx.mark.advance.1) lx.mark.advance.2

/-- `tokens.push_back` guarded by `if (maybe && *maybe)`. -/
def push_token (tokens : List Token) : Option Token → List Token
  | none => tokens
  | some t => tokens ++ [t]

/-- The loop of `Lexer::tokenize` followed by the final `make_eof`. `none` means that
`fuel` iterations did not reach the end of the buffer. -/
def tokenize_loop (stold_ok : List Char → Bool) :
    Nat → Lexer → List Token → Option (Except String (List Token))
  | 0, lx, tokens =>
    if lx.is_at_end then some (.ok (tokens ++ [TokenFactory.make_eof lx.line_ lx.col_]))
    else none
  | fuel + 1, lx, tokens =>
    if lx.is_at_end then some (.ok (tokens ++ [TokenFactory.make_eof lx.line_ lx.col_]))
    else
      match tokenize_step stold_ok lx with
      | .error e => some (.error e)
      | .ok r => tokenize_loop stold_ok fuel r.1 (push_token tokens r.2)

/-- `Lexer(src, keep_comments).tokenize()`: every iteration consumes a character, so
`src.length` iterations are enough (`tokenize_terminates`). -/
def tokenize (stold_ok : List Char → Bool) (src : List Char) (keep_comments : Bool) :
    Option (Except String (List Token)) :=
  tokenize_loop stold_ok src.length (Lexer.init src keep_comments) []

/-- A `stold` that accepts every text, for evaluating the strategies on given sources. -/
def stold_any : List Char → Bool := fun _ => true

/-! ## Source positions and the trace of a run -/

/-- The 1-based line of offset `off`: one more than the newlines in `src[0 .. off)`. -/
def line_of (src : List Char) (off : Nat) : Nat :=
  1 + (src.take off).count '\n'

/-- The 1-based column of offset `off`: one more than the characters between the last
newline before `off` (or the buffer start) and `off`. -/
def column_of (src : List Char) (off : Nat) : Nat :=
  1 + ((src.take off).reverse.takeWhile (fun c => decide (c ≠ '\n'))).length

/-- The cursor reached from another by zero or more calls of `advance`. -/
inductive Steps : Lexer → Lexer → Prop where
  | refl (lx : Lexer) : Steps lx lx
  | adv {lx lx1 : Lexer} : Steps lx.advance.2 lx1 → Steps lx lx1

/-- What every strategy guarantees of the token it returns: it is not an EOF token, and
it carries `lx.line()` and `lx.token_col()` of the cursor the strategy leaves. -/
def TokenAt (r : Lexer × Option Token) : Prop :=
  ∀ t, r.2 = some t → t.type ≠ TokenType.EOF_T ∧ t.line = r.1.line_ ∧ t.column = r.1.token_col_

/-- The line counter agrees with the offset. -/
def LineOK (lx : Lexer) : Prop := lx.line_ = line_of lx.src_ lx.current_

/-- The column counter agrees with the offset. -/
def ColOK (lx : Lexer) : Prop := lx.col_ = column_of lx.src_ lx.current_

/-- INT and FLOAT, the two types of token that the number strategy returns. -/
def is_numeric (t : Token) : Prop := t.type = TokenType.INT ∨ t.type = TokenType.FLOAT

/-- The cursor after `n` more characters, none of them a newline, have been consumed. -/
def Lexer.skip (lx : Lexer) (n : Nat) : Lexer :=
  { lx with current_ := lx.current_ + n, col_ := lx.col_ + n }

/-- The bytes for which the documentation lists a strategy: blanks, newline, ASCII
letters, underscore, ASCII digits, the two quotes, and the operator and punctuation
characters. -/
def is_listed (c : Char) : Bool :=
  c = ' ' || c = '\t' || c = '\r' || c = '\n' || c.isAlpha || c = '_' || c.isDigit ||
    c = '"' || c = '\'' || "+-*/%<>=!&|^~?:.,;()\x7b\x7d[]".toList.contains c

/-- The message of the unexpected-character error for the byte `c`, as a reader of
`what()` sees it: the byte follows the fixed text unless it is NUL, which ends the
message. -/
def unexpected_message (c : Char) : String :=
  if c = NUL then "Unexpected character: " else "Unexpected character: ".push c

/-- An element of the body of a string literal: an ordinary character, or a backslash
followed by the escaped character. -/
inductive StrItem where
  | plain (c : Char)
  | escape (e : Char)
  deriving DecidableEq, Repr

/-- An ordinary character is anything except the double quote, the backslash and the
newline; the escaped character is unrestricted. -/
def StrItem.wellformed : StrItem → Prop
  | StrItem.plain c => c ≠ '"' ∧ c ≠ '\\' ∧ c ≠ '\n'
  | StrItem.escape _ => True

instance (item : StrItem) : Decidable item.wellformed := by
  cases item <;> unfold StrItem.wellformed <;> infer_instance

/-- The source text of an element. -/
def StrItem.text : StrItem → List Char
  | StrItem.plain c => [c]
  | StrItem.escape e => ['\\', e]

/-- The decoding of string escapes as documented: `n`, `t`, `r`, backslash and double
quote stand for newline, tab, carriage return, backslash and double quote, any other
character for itself. -/
def string_escape_value (e : Char) : Char :=
  match e with
  | 'n' => '\n'
  | 't' => '\t'
  | 'r' => '\r'
  | '\\' => '\\'
  | '"' => '"'
  | other => other

/-- The decoded character of an element. -/
def StrItem.value : StrItem → Char
  | StrItem.plain c => c
  | StrItem.escape e => string_escape_value e

/-- The source text of a body. -/
def body_text : List StrItem → List Char
  | [] => []
  | item :: items => item.text ++ body_text items

/-- The decoded text of a body. -/
def body_value (body : List StrItem) : List Char := body.map StrItem.value

/-- The tokens of a source of blanks and newlines read from line `line`, column `col`:
one NEWLINE token per newline, in order, then the EOF token. A newline moves to the next
line, any other character to the next column; a NEWLINE token carries the column of its
newline and the line after it, the cursor line when the token is built. -/
def blank_tokens : Nat → Nat → List Char → List Token
  | line, col, [] => [TokenFactory.make_eof line col]
  | line, col, c :: rest =>
    if c = '\n' then TokenFactory.make_newline (line + 1) col :: blank_tokens (line + 1) 1 rest
    else blank_tokens line (col + 1) rest

/-- The part of `NumberHandler::scan` that follows the `consume_while` of the leading
digits, `r` being the cursor and the text `raw` that the `consume_while` left: the
fraction branch, the exponent-only branch, and the integer. -/
def NumberHandler.after_digits (stold_ok : List Char → Bool) (r : Lexer × List Char) :
    ScanResult :=
  if r.1.peek 0 = '.' ∧ (r.1.peek 1).isDigit = true then
    let r1 := r.1.advance.2.consume_while (r.2 ++ [r.1.advance.1]) Char.isDigit
    NumberHandler.fraction_tail stold_ok r1.1 r1.2
  else if r.1.peek 0 = 'e' ∨ r.1.peek 0 = 'E' then NumberHandler.exponent_float stold_ok r.1 r.2
  else
    match NumberHandler.stoll r.2 with
    | none => .error ("Malformed integer literal: " ++ String.mk r.2)
    | some vi => .ok (r.1, some (TokenFactory.make_int_literal r.2 vi r.1.line_ r.1.token_col_))

/-! ## Textual forms (`values/`, `tokens/`) -/

/-- The decimal digits that `std::to_string` and `os <<` write for a non-negative
integer. -/
def decimal_text (n : Nat) : List Char := Nat.toDigits 10 n

/-- `IntValue::to_string`: `std::to_string(v)`. -/
def IntValue.to_string (v : Int) : List Char :=
  match v with
  | Int.ofNat n => decimal_text n
  | Int.negSucc n => '-' :: decimal_text (n + 1)

/-- `StringValue::to_string`: the text between two double quotes, nothing escaped. -/
def StringValue.to_string (v : List Char) : List Char := '"' :: (v ++ ['"'])

/-- `CharValue::to_string`: the character between two apostrophes. -/
def CharValue.to_string (v : Char) : List Char := ['\'', v, '\'']

/-- `BoolValue::to_string`. -/
def BoolValue.to_string (v : Bool) : List Char := if v then "true".toList else "false".toList

/-- The virtual `Value::to_string`. `FloatValue::to_string` writes the `double` nearest
to the converted text with `os <<`, a library formatting that is the parameter
`double_text` here. -/
def Value.to_string (double_text : List Char → List Char) : Value → List Char
  | Value.IntValue v => IntValue.to_string v
  | Value.FloatValue text => double_text text
  | Value.StringValue s => StringValue.to_string s
  | Value.CharValue c => CharValue.to_string c
  | Value.BoolValue b => BoolValue.to_string b

/-- Mirror of `to_string_view(TokenType)`. -/
def to_string_view : TokenType → List Char
  | TokenType.IDENT => "IDENT".toList
  | TokenType.KEYWORD => "KEYWORD".toList
  | TokenType.INT => "INT".toList
  | TokenType.FLOAT => "FLOAT".toList
  | TokenType.STRING => "STRING".toList
  | TokenType.CHAR => "CHAR".toList
  | TokenType.BOOL => "BOOL".toList
  | TokenType.OPERATOR => "OPERATOR".toList
  | TokenType.PUNCT => "PUNCT".toList
  | TokenType.NEWLINE => "NEWLINE".toList
  | TokenType.COMMENT => "COMMENT".toList
  | TokenType.EOF_T => "EOF".toList

/-- The tail `@line:column)` that every `to_string` override writes. -/
def position_text (t : Token) : List Char :=
  decimal_text t.line ++ ":".toList ++ decimal_text t.column ++ ")".toList

/-- The virtual `Token::to_string`, override by override: the class of a token is fixed
by its type, `LiteralToken` being the class of INT, FLOAT, STRING, CHAR and BOOL. -/
def Token.to_string (double_text : List Char → List Char) (t : Token) : List Char :=
  match t.type with
  | TokenType.IDENT => "Token(IDENT, '".toList ++ t.lexeme ++ "', @".toList ++ position_text t
  | TokenType.KEYWORD =>
    "Token(KEYWORD, '".toList ++ t.lexeme ++ "', @".toList ++ position_text t
  | TokenType.OPERATOR =>
    "Token(OPERATOR, '".toList ++ t.lexeme ++ "', @".toList ++ position_text t
  | TokenType.PUNCT => "Token(PUNCT, '".toList ++ t.lexeme ++ "', @".toList ++ position_text t
  | TokenType.COMMENT =>
    "Token(COMMENT, '".toList ++ t.lexeme ++ "', @".toList ++ position_text t
  | TokenType.NEWLINE => "Token(NEWLINE, '\\n', @".toList ++ position_text t
  | TokenType.EOF_T => "Token(EOF, @".toList ++ position_text t
  | _ =>
    "Token(".toList ++ to_string_view t.type ++ ", '".toList ++ t.lexeme ++ "'".toList ++
      (match t.value with
       | some v => ", ".toList ++ v.to_string double_text
       | none => []) ++
      ", @".toList ++ position_text t

/-- The tokens that the scanning strategies other than the slash strategy build: the
products of `TokenFactory`, an INT literal holding a value that `std::stoll` returned for
a run of digits. -/
inductive Producible : Token → Prop where
  | ident (lex : List Char) (line col : Nat) :
    Producible (TokenFactory.make_ident lex line col)
  | keyword (lex : List Char) (line col : Nat) :
    Producible (TokenFactory.make_keyword lex line col)
  | operator (lex : List Char) (line col : Nat) :
    Producible (TokenFactory.make_operator lex line col)
  | punct_token (ch : Char) (line col : Nat) :
    Producible (TokenFactory.make_punct ch line col)
  | newline (line col : Nat) : Producible (TokenFactory.make_newline line col)
  | int_literal (raw : List Char) (n : Nat) (hn : n ≤ 2 ^ 63 - 1) (line col : Nat) :
    Producible (TokenFactory.make_int_literal raw (Int.ofNat n) line col)
  | float_literal (raw : List Char) (line col : Nat) :
    Producible (TokenFactory.make_float_literal raw line col)
  | string_literal (raw s : List Char) (line col : Nat) :
    Producible (TokenFactory.make_string_literal raw s line col)
  | char_literal (raw : List Char) (c : Char) (line col : Nat) :
    Producible (TokenFactory.make_char_literal raw c line col)
  | bool_literal (raw : List Char) (b : Bool) (line col : Nat) :
    Producible (TokenFactory.make_bool_literal raw b line col)

/-- The cursor with `keep_comments_` replaced. -/
def Lexer.with_keep (lx : Lexer) (b : Bool) : Lexer := { lx with keep_comments_ := b }

/-- A scan result with `keep_comments_` of the cursor replaced. -/
def ScanResult.with_keep (r : ScanResult) (b : Bool) : ScanResult :=
  match r with
  | .error e => .error e
  | .ok x => .ok (x.1.with_keep b, x.2)

/-- The types of the tokens built as `LiteralToken`. -/
def is_literal : TokenType → Bool
  | TokenType.INT => true
  | TokenType.FLOAT => true
  | TokenType.STRING => true
  | TokenType.CHAR => true
  | TokenType.BOOL => true
  | _ => false

/-- The documented textual form of a token: `Token(KIND, 'lexeme'V, @line:column)`, `V`
being `, ` and the text of the value for a literal token and empty otherwise. -/
def token_text (double_text : List Char → List Char) (t : Token) : List Char :=
  "Token(".toList ++ to_string_view t.type ++ ", '".toList ++ t.lexeme ++ "'".toList ++
    (if is_literal t.type then
      ", ".toList ++ (match t.value with
        | some v => v.to_string double_text
        | none => [])
     else []) ++
    ", @".toList ++ decimal_text t.line ++ ":".toList ++ decimal_text t.column ++ ")".toList

/-- A rendering of doubles that repeats the converted text, for evaluating `to_string`
on given tokens. -/
def double_text_any : List Char → List Char := fun text => text

/-! ## Cursor lemmas -/

namespace Lexer

theorem advance_fst (lx : Lexer) : lx.advance.1 = lx.peek 0 := by
  unfold advance peek is_at_end
  by_cases h : lx.current_ ≥ lx.src_.length
  · simp [h]
  · simp [h]
    split <;> simp_all

theorem advance_src (lx : Lexer) : lx.advance.2.src_ = lx.src_ := by
  unfold advance
  split
  · rfl
  · dsimp only
    split <;> rfl

theorem advance_keep (lx : Lexer) : lx.advance.2.keep_comments_ = lx.keep_comments_ := by
  unfold advance
  split
  · rfl
  · dsimp only
    split <;> rfl

theorem advance_start (lx : Lexer) : lx.advance.2.start_ = lx.start_ := by
  unfold advance
  split
  · rfl
  · dsimp only
    split <;> rfl

theorem advance_token_col (lx : Lexer) : lx.advance.2.token_col_ = lx.token_col_ := by
  unfold advance
  split
  · rfl
  · dsimp only
    split <;> rfl

theorem advance_current (lx : Lexer) (h : lx.is_at_end = false) :
    lx.advance.2.current_ = lx.current_ + 1 := by
  unfold advance
  rw [h]
  dsimp only
  simp only [Bool.false_eq_true, if_false]
  split <;> rfl

theorem advance_at_end (lx : Lexer) (h : lx.is_at_end = true) : lx.advance = (NUL, lx) := by
  unfold advance
  rw [h]
  rfl

theorem is_at_end_false_iff (lx : Lexer) :
    lx.is_at_end = false ↔ lx.current_ < lx.src_.length := by
  unfold is_at_end
  simp

theorem is_at_end_true_iff (lx : Lexer) :
    lx.is_at_end = true ↔ lx.src_.length ≤ lx.current_ := by
  unfold is_at_end
  simp

theorem advance_current_le (lx : Lexer) : lx.current_ ≤ lx.advance.2.current_ := by
  cases h : lx.is_at_end
  · rw [advance_current lx h]
    exact Nat.le_succ _
  · rw [advance_at_end lx h]

theorem advance_le_length (lx : Lexer) (h : lx.current_ ≤ lx.src_.length) :
    lx.advance.2.current_ ≤ lx.advance.2.src_.length := by
  rw [advance_src]
  cases h1 : lx.is_at_end
  · rw [advance_current lx h1]
    exact (is_at_end_false_iff lx).1 h1
  · rw [advance_at_end lx h1]
    exact h

end Lexer

/-! ## What a run of `advance` calls keeps -/

namespace Steps

theorem trans {a b c : Lexer} (h1 : Steps a b) (h2 : Steps b c) : Steps a c := by
  induction h1 with
  | refl _ => exact h2
  | adv _ ih => exact Steps.adv (ih h2)

theorem one (lx : Lexer) : Steps lx lx.advance.2 :=
  Steps.adv (Steps.refl _)

theorem src {a b : Lexer} (h : Steps a b) : b.src_ = a.src_ := by
  induction h with
  | refl _ => rfl
  | adv _ ih => rw [ih, Lexer.advance_src]

theorem keep {a b : Lexer} (h : Steps a b) : b.keep_comments_ = a.keep_comments_ := by
  induction h with
  | refl _ => rfl
  | adv _ ih => rw [ih, Lexer.advance_keep]

theorem start {a b : Lexer} (h : Steps a b) : b.start_ = a.start_ := by
  induction h with
  | refl _ => rfl
  | adv _ ih => rw [ih, Lexer.advance_start]

theorem token_col {a b : Lexer} (h : Steps a b) : b.token_col_ = a.token_col_ := by
  induction h with
  | refl _ => rfl
  | adv _ ih => rw [ih, Lexer.advance_token_col]

theorem current_le {a b : Lexer} (h : Steps a b) : a.current_ ≤ b.current_ := by
  induction h with
  | refl _ => exact Nat.le_refl _
  | adv _ ih => exact Nat.le_trans (Lexer.advance_current_le _) ih

theorem le_length {a b : Lexer} (h : Steps a b) (ha : a.current_ ≤ a.src_.length) :
    b.current_ ≤ b.src_.length := by
  induction h with
  | refl _ => exact ha
  | adv _ ih => exact ih (Lexer.advance_le_length _ ha)

end Steps

theorem consume_while_loop_steps (pred : Char → Bool) (fuel : Nat) (lx : Lexer)
    (out : List Char) : Steps lx (Lexer.consume_while_loop pred fuel lx out).1 := by
  induction fuel generalizing lx out with
  | zero => exact Steps.refl _
  | succ n ih =>
    unfold Lexer.consume_while_loop
    split
    · exact Steps.adv (ih _ _)
    · exact Steps.refl _

theorem consume_while_steps (lx : Lexer) (out : List Char) (pred : Char → Bool) :
    Steps lx (lx.consume_while out pred).1 :=
  consume_while_loop_steps pred _ lx out

theorem whitespace_loop_steps (fuel : Nat) (lx : Lexer) :
    Steps lx (WhitespaceHandler.loop fuel lx) := by
  induction fuel generalizing lx with
  | zero => exact Steps.refl _
  | succ n ih =>
    unfold WhitespaceHandler.loop
    split
    · exact Steps.refl _
    · split
      · exact Steps.adv (ih _)
      · exact Steps.refl _

theorem string_loop_steps (fuel : Nat) (lx : Lexer) (raw out : List Char)
    (r : Lexer × List Char × List Char) (h : StringHandler.loop fuel lx raw out = .ok r) :
    Steps lx r.1 := by
  induction fuel generalizing lx raw out with
  | zero =>
    unfold StringHandler.loop at h
    cases h
    exact Steps.refl _
  | succ n ih =>
    unfold StringHandler.loop at h
    split at h
    · cases h
      exact Steps.refl _
    · dsimp only at h
      split at h
      · cases h
        exact Steps.one _
      · split at h
        · exact Steps.adv (Steps.adv (ih _ _ _ h))
        · split at h
          · cases h
          · exact Steps.adv (ih _ _ _ h)

theorem line_loop_steps (fuel : Nat) (lx : Lexer) (txt : List Char) :
    Steps lx (SlashHandler.line_loop fuel lx txt).1 := by
  induction fuel generalizing lx txt with
  | zero => exact Steps.refl _
  | succ n ih =>
    unfold SlashHandler.line_loop
    split
    · exact Steps.adv (ih _ _)
    · exact Steps.refl _

theorem block_loop_steps (fuel : Nat) (lx : Lexer) (txt : List Char) :
    Steps lx (SlashHandler.block_loop fuel lx txt).1 := by
  induction fuel generalizing lx txt with
  | zero => exact Steps.refl _
  | succ n ih =>
    unfold SlashHandler.block_loop
    split
    · exact Steps.refl _
    · dsimp only
      split
      · exact Steps.adv (Steps.one _)
      · exact Steps.adv (ih _ _)

theorem exponent_digits_steps (lx : Lexer) (raw : List Char) (r : Lexer × List Char)
    (h : NumberHandler.exponent_digits lx raw = .ok r) : Steps lx r.1 := by
  unfold NumberHandler.exponent_digits at h
  split at h
  · cases h
  · cases h
    exact consume_while_steps _ _ _

theorem exponent_steps (lx : Lexer) (raw : List Char) (r : Lexer × List Char)
    (h : NumberHandler.exponent lx raw = .ok r) : Steps lx r.1 := by
  unfold NumberHandler.exponent at h
  dsimp only at h
  split at h
  · exact Steps.adv (Steps.adv (exponent_digits_steps _ _ _ h))
  · exact Steps.adv (exponent_digits_steps _ _ _ h)

theorem float_literal_state (stold_ok : List Char → Bool) (lx : Lexer) (raw : List Char)
    (r : Lexer × Option Token) (h : NumberHandler.float_literal stold_ok lx raw = .ok r) :
    r.1 = lx ∧ r.2 = some (TokenFactory.make_float_literal raw lx.line_ lx.token_col_) := by
  unfold NumberHandler.float_literal at h
  split at h
  · cases h
    exact ⟨rfl, rfl⟩
  · cases h

/-! ## The fuel of the inner loops is enough

Each inner loop is run with as many iterations as characters are left; with that many
or more, its result does not depend on the number given. -/

theorem consume_while_loop_fuel (pred : Char → Bool) (f1 f2 : Nat) (lx : Lexer)
    (out : List Char) (h1 : lx.src_.length - lx.current_ ≤ f1)
    (h2 : lx.src_.length - lx.current_ ≤ f2) :
    Lexer.consume_while_loop pred f1 lx out = Lexer.consume_while_loop pred f2 lx out := by
  induction f1 generalizing f2 lx out with
  | zero =>
    have hend : lx.is_at_end = true := (Lexer.is_at_end_true_iff lx).2 (by omega)
    cases f2 with
    | zero => rfl
    | succ m =>
      unfold Lexer.consume_while_loop
      rw [hend]
      rfl
  | succ n ih =>
    cases hend : lx.is_at_end with
    | true =>
      cases f2 with
      | zero =>
        unfold Lexer.consume_while_loop
        rw [hend]
        rfl
      | succ m =>
        unfold Lexer.consume_while_loop
        rw [hend]
        rfl
    | false =>
      have hlt := (Lexer.is_at_end_false_iff lx).1 hend
      cases f2 with
      | zero => omega
      | succ m =>
        unfold Lexer.consume_while_loop
        split
        · apply ih
          · rw [Lexer.advance_src, Lexer.advance_current lx hend]
            omega
          · rw [Lexer.advance_src, Lexer.advance_current lx hend]
            omega
        · rfl

theorem whitespace_loop_fuel (f1 f2 : Nat) (lx : Lexer)
    (h1 : lx.src_.length - lx.current_ ≤ f1) (h2 : lx.src_.length - lx.current_ ≤ f2) :
    WhitespaceHandler.loop f1 lx = WhitespaceHandler.loop f2 lx := by
  induction f1 generalizing f2 lx with
  | zero =>
    have hend : lx.is_at_end = true := (Lexer.is_at_end_true_iff lx).2 (by omega)
    cases f2 with
    | zero => rfl
    | succ m =>
      unfold WhitespaceHandler.loop
      rw [if_pos hend]
  | succ n ih =>
    cases hend : lx.is_at_end with
    | true =>
      cases f2 with
      | zero =>
        unfold WhitespaceHandler.loop
        rw [if_pos hend]
      | succ m =>
        unfold WhitespaceHandler.loop
        rw [if_pos hend, if_pos hend]
    | false =>
      have hlt := (Lexer.is_at_end_false_iff lx).1 hend
      cases f2 with
      | zero => omega
      | succ m =>
        unfold WhitespaceHandler.loop
        rw [hend]
        simp only [Bool.false_eq_true, if_false]
        split
        · apply ih
          · rw [Lexer.advance_src, Lexer.advance_current lx hend]
            omega
          · rw [Lexer.advance_src, Lexer.advance_current lx hend]
            omega
        · rfl

theorem line_loop_fuel (f1 f2 : Nat) (lx : Lexer) (txt : List Char)
    (h1 : lx.src_.length - lx.current_ ≤ f1) (h2 : lx.src_.length - lx.current_ ≤ f2) :
    SlashHandler.line_loop f1 lx txt = SlashHandler.line_loop f2 lx txt := by
  induction f1 generalizing f2 lx txt with
  | zero =>
    have hend : lx.is_at_end = true := (Lexer.is_at_end_true_iff lx).2 (by omega)
    cases f2 with
    | zero => rfl
    | succ m =>
      unfold SlashHandler.line_loop
      rw [hend]
      rfl
  | succ n ih =>
    cases hend : lx.is_at_end with
    | true =>
      cases f2 with
      | zero =>
        unfold SlashHandler.line_loop
        rw [hend]
        rfl
      | succ m =>
        unfold SlashHandler.line_loop
        rw [hend]
        rfl
    | false =>
      have hlt := (Lexer.is_at_end_false_iff lx).1 hend
      cases f2 with
      | zero => omega
      | succ m =>
        unfold SlashHandler.line_loop
        split
        · apply ih
          · rw [Lexer.advance_src, Lexer.advance_current lx hend]
            omega
          · rw [Lexer.advance_src, Lexer.advance_current lx hend]
            omega
        · rfl

theorem block_loop_fuel (f1 f2 : Nat) (lx : Lexer) (txt : List Char)
    (h1 : lx.src_.length - lx.current_ ≤ f1) (h2 : lx.src_.length - lx.current_ ≤ f2) :
    SlashHandler.block_loop f1 lx txt = SlashHandler.block_loop f2 lx txt := by
  induction f1 generalizing f2 lx txt with
  | zero =>
    have hend : lx.is_at_end = true := (Lexer.is_at_end_true_iff lx).2 (by omega)
    cases f2 with
    | zero => rfl
    | succ m =>
      unfold SlashHandler.block_loop
      rw [if_pos hend]
  | succ n ih =>
    cases hend : lx.is_at_end with
    | true =>
      cases f2 with
      | zero =>
        unfold SlashHandler.block_loop
        rw [if_pos hend]
      | succ m =>
        unfold SlashHandler.block_loop
        rw [if_pos hend, if_pos hend]
    | false =>
      have hlt := (Lexer.is_at_end_false_iff lx).1 hend
      cases f2 with
      | zero => omega
      | succ m =>
        unfold SlashHandler.block_loop
        rw [hend]
        simp only [Bool.false_eq_true, if_false]
        split
        · rfl
        · apply ih
          · rw [Lexer.advance_src, Lexer.advance_current lx hend]
            omega
          · rw [Lexer.advance_src, Lexer.advance_current lx hend]
            omega

theorem string_loop_fuel (f1 f2 : Nat) (lx : Lexer) (raw out : List Char)
    (h1 : lx.src_.length - lx.current_ ≤ f1) (h2 : lx.src_.length - lx.current_ ≤ f2) :
    StringHandler.loop f1 lx raw out = StringHandler.loop f2 lx raw out := by
  induction f1 generalizing f2 lx raw out with
  | zero =>
    have hend : lx.is_at_end = true := (Lexer.is_at_end_true_iff lx).2 (by omega)
    cases f2 with
    | zero => rfl
    | succ m =>
      unfold StringHandler.loop
      rw [if_pos hend]
  | succ n ih =>
    cases hend : lx.is_at_end with
    | true =>
      cases f2 with
      | zero =>
        unfold StringHandler.loop
        rw [if_pos hend]
      | succ m =>
        unfold StringHandler.loop
        rw [if_pos hend, if_pos hend]
    | false =>
      have hlt := (Lexer.is_at_end_false_iff lx).1 hend
      have hcur := Lexer.advance_current lx hend
      have hcur2 := Lexer.advance_current_le lx.advance.2
      cases f2 with
      | zero => omega
      | succ m =>
        unfold StringHandler.loop
        rw [hend]
        simp only [Bool.false_eq_true, if_false]
        split
        · rfl
        · split
          · apply ih
            · rw [Lexer.advance_src, Lexer.advance_src]
              omega
            · rw [Lexer.advance_src, Lexer.advance_src]
              omega
          · split
            · rfl
            · apply ih
              · rw [Lexer.advance_src]
                omega
              · rw [Lexer.advance_src]
                omega

/-! ## The strategies, one by one -/

theorem tokenAt_some (lx : Lexer) (t : Token) (h1 : t.type ≠ TokenType.EOF_T)
    (h2 : t.line = lx.line_) (h3 : t.column = lx.token_col_) : TokenAt (lx, some t) := by
  intro u hu
  cases hu
  exact ⟨h1, h2, h3⟩

theorem tokenAt_none (lx : Lexer) : TokenAt (lx, none) := by
  intro u hu
  cases hu

theorem whitespace_scan_spec (lx : Lexer) (r : Lexer × Option Token)
    (h : WhitespaceHandler.scan lx = .ok r) : Steps lx r.1 ∧ TokenAt r := by
  unfold WhitespaceHandler.scan at h
  cases h
  exact ⟨whitespace_loop_steps _ _, tokenAt_none _⟩

theorem newline_scan_spec (lx : Lexer) (r : Lexer × Option Token)
    (h : NewlineHandler.scan lx = .ok r) : Steps lx r.1 ∧ TokenAt r := by
  unfold NewlineHandler.scan at h
  cases h
  exact ⟨Steps.refl _, tokenAt_some _ _ (by intro hc; cases hc) rfl rfl⟩

theorem punct_scan_spec (lx : Lexer) (r : Lexer × Option Token)
    (h : PunctHandler.scan lx = .ok r) : Steps lx r.1 ∧ TokenAt r := by
  unfold PunctHandler.scan at h
  cases h
  exact ⟨Steps.refl _, tokenAt_some _ _ (by intro hc; cases hc) rfl rfl⟩

theorem identifier_scan_spec (lx : Lexer) (r : Lexer × Option Token)
    (h : IdentifierHandler.scan lx = .ok r) : Steps lx r.1 ∧ TokenAt r := by
  unfold IdentifierHandler.scan at h
  dsimp only at h
  split at h
  · split at h <;> cases h <;>
      exact ⟨consume_while_steps _ _ _, tokenAt_some _ _ (by intro hc; cases hc) rfl rfl⟩
  · split at h <;> cases h <;>
      exact ⟨consume_while_steps _ _ _, tokenAt_some _ _ (by intro hc; cases hc) rfl rfl⟩

theorem operator_scan_spec (lx : Lexer) (r : Lexer × Option Token)
    (h : OperatorHandler.scan lx = .ok r) : Steps lx r.1 ∧ TokenAt r := by
  unfold OperatorHandler.scan at h
  dsimp only at h
  split at h
  · split at h
    · cases h
      exact ⟨Steps.one _, tokenAt_some _ _ (by intro hc; cases hc) rfl rfl⟩
    · cases h
      exact ⟨Steps.refl _, tokenAt_some _ _ (by intro hc; cases hc) rfl rfl⟩
  · cases h
    exact ⟨Steps.refl _, tokenAt_some _ _ (by intro hc; cases hc) rfl rfl⟩

theorem string_scan_spec (lx : Lexer) (r : Lexer × Option Token)
    (h : StringHandler.scan lx = .ok r) : Steps lx r.1 ∧ TokenAt r := by
  unfold StringHandler.scan at h
  split at h
  · cases h
  · rename_i lx1 raw out hl
    cases h
    exact ⟨string_loop_steps _ _ _ _ _ hl, tokenAt_some _ _ (by intro hc; cases hc) rfl rfl⟩

theorem char_close_spec (lx : Lexer) (raw : List Char) (val : Char)
    (r : Lexer × Option Token) (h : CharHandler.close lx raw val = .ok r) :
    Steps lx r.1 ∧ TokenAt r := by
  unfold CharHandler.close at h
  split at h
  · cases h
    exact ⟨Steps.one _, tokenAt_some _ _ (by intro hc; cases hc) rfl rfl⟩
  · cases h

theorem char_scan_spec (lx : Lexer) (r : Lexer × Option Token)
    (h : CharHandler.scan lx = .ok r) : Steps lx r.1 ∧ TokenAt r := by
  unfold CharHandler.scan at h
  split at h
  · obtain ⟨h1, h2⟩ := char_close_spec _ _ _ _ h
    exact ⟨Steps.adv (Steps.adv h1), h2⟩
  · obtain ⟨h1, h2⟩ := char_close_spec _ _ _ _ h
    exact ⟨Steps.adv h1, h2⟩

theorem slash_scan_spec (lx : Lexer) (r : Lexer × Option Token)
    (h : SlashHandler.scan lx = .ok r) : Steps lx r.1 ∧ TokenAt r := by
  unfold SlashHandler.scan at h
  dsimp only at h
  split at h
  · split at h
    · cases h
      exact ⟨line_loop_steps _ _ _, tokenAt_some _ _ (by intro hc; cases hc) rfl rfl⟩
    · cases h
      exact ⟨line_loop_steps _ _ _, tokenAt_none _⟩
  · split at h
    · split at h
      · cases h
      · split at h
        · cases h
          exact ⟨Steps.adv (block_loop_steps _ _ _),
            tokenAt_some _ _ (by intro hc; cases hc) rfl rfl⟩
        · cases h
          exact ⟨Steps.adv (block_loop_steps _ _ _), tokenAt_none _⟩
    · cases h
      exact ⟨Steps.refl _, tokenAt_some _ _ (by intro hc; cases hc) rfl rfl⟩

theorem float_literal_spec (stold_ok : List Char → Bool) (base lx : Lexer) (raw : List Char)
    (r : Lexer × Option Token) (hb : Steps base lx)
    (h : NumberHandler.float_literal stold_ok lx raw = .ok r) :
    Steps base r.1 ∧ TokenAt r ∧ ∃ t, r.2 = some t ∧ is_numeric t := by
  obtain ⟨h1, h2⟩ := float_literal_state _ _ _ _ h
  refine ⟨?_, ?_, ⟨_, h2, Or.inr rfl⟩⟩
  · rw [h1]
    exact hb
  · intro t ht
    rw [h2] at ht
    cases ht
    rw [h1]
    exact ⟨(by intro hc; cases hc), rfl, rfl⟩

theorem exponent_float_spec (stold_ok : List Char → Bool) (base lx : Lexer) (raw : List Char)
    (r : Lexer × Option Token) (hb : Steps base lx)
    (h : NumberHandler.exponent_float stold_ok lx raw = .ok r) :
    Steps base r.1 ∧ TokenAt r ∧ ∃ t, r.2 = some t ∧ is_numeric t := by
  unfold NumberHandler.exponent_float at h
  split at h
  · cases h
  · rename_i r2 he
    exact float_literal_spec stold_ok base _ _ r
      (Steps.trans hb (exponent_steps _ _ _ he)) h

theorem fraction_tail_spec (stold_ok : List Char → Bool) (base lx : Lexer) (raw : List Char)
    (r : Lexer × Option Token) (hb : Steps base lx)
    (h : NumberHandler.fraction_tail stold_ok lx raw = .ok r) :
    Steps base r.1 ∧ TokenAt r ∧ ∃ t, r.2 = some t ∧ is_numeric t := by
  unfold NumberHandler.fraction_tail at h
  split at h
  · exact exponent_float_spec stold_ok base _ _ r hb h
  · exact float_literal_spec stold_ok base _ _ r hb h

theorem number_scan_spec (stold_ok : List Char → Bool) (lx : Lexer)
    (r : Lexer × Option Token) (h : NumberHandler.scan stold_ok lx = .ok r) :
    (Steps lx r.1 ∨ (lx.current_char ≠ '.' ∧
      Steps (lx.retreat_one.consume_while [] Char.isDigit).1 r.1)) ∧ TokenAt r ∧
    ∃ t, r.2 = some t ∧ is_numeric t := by
  unfold NumberHandler.scan at h
  dsimp only at h
  split at h
  · obtain ⟨h1, h2⟩ := fraction_tail_spec stold_ok lx _ _ r (consume_while_steps _ _ _) h
    exact ⟨Or.inl h1, h2⟩
  · rename_i hfirst
    split at h
    · obtain ⟨h1, h2⟩ := fraction_tail_spec stold_ok
        (lx.retreat_one.consume_while [] Char.isDigit).1 _ _ r
        (Steps.adv (consume_while_steps _ _ _)) h
      exact ⟨Or.inr ⟨hfirst, h1⟩, h2⟩
    · split at h
      · obtain ⟨h1, h2⟩ := exponent_float_spec stold_ok
          (lx.retreat_one.consume_while [] Char.isDigit).1 _ _ r (Steps.refl _) h
        exact ⟨Or.inr ⟨hfirst, h1⟩, h2⟩
      · split at h
        · cases h
        · cases h
          exact ⟨Or.inr ⟨hfirst, Steps.refl _⟩,
            tokenAt_some _ _ (by intro hc; cases hc) rfl rfl, ⟨_, rfl, Or.inl rfl⟩⟩

/-! ## The dispatch table -/

theorem toNat_ofNat_small (n : Nat) (hv : n < 0xd800) : (Char.ofNat n).toNat = n := by
  have hv2 : n.isValidChar := Or.inl hv
  unfold Char.ofNat
  rw [dif_pos hv2]
  rfl

theorem mem_char_range (lo hi x : Char) (hhi : hi.toNat < 0xd800) :
    x ∈ char_range lo hi ↔ lo.toNat ≤ x.toNat ∧ x.toNat ≤ hi.toNat := by
  unfold char_range
  simp only [List.mem_map, List.mem_range]
  constructor
  · rintro ⟨i, hi1, rfl⟩
    rw [toNat_ofNat_small _ (by omega)]
    omega
  · rintro ⟨h1, h2⟩
    refine ⟨x.toNat - lo.toNat, by omega, ?_⟩
    have : lo.toNat + (x.toNat - lo.toNat) = x.toNat := by omega
    rw [this, Char.ofNat_toNat]

theorem mem_lower_range (x : Char) : x ∈ char_range 'a' 'z' ↔ x.isLower = true := by
  rw [mem_char_range _ _ _ (by decide)]
  simp only [Char.isLower, Bool.and_eq_true, decide_eq_true_eq, ge_iff_le]
  exact Iff.rfl

theorem mem_upper_range (x : Char) : x ∈ char_range 'A' 'Z' ↔ x.isUpper = true := by
  rw [mem_char_range _ _ _ (by decide)]
  simp only [Char.isUpper, Bool.and_eq_true, decide_eq_true_eq, ge_iff_le]
  exact Iff.rfl

theorem mem_digit_range (x : Char) : x ∈ char_range '0' '9' ↔ x.isDigit = true := by
  rw [mem_char_range _ _ _ (by decide)]
  simp only [Char.isDigit, Bool.and_eq_true, decide_eq_true_eq, ge_iff_le]
  exact Iff.rfl

theorem set_handlers_apply (tbl : HandlerTable) (cs : List Char) (h : HandlerKind) (x : Char) :
    set_handlers tbl cs h x = if x ∈ cs then some h else tbl x := by
  induction cs generalizing tbl with
  | nil => simp [set_handlers]
  | cons c cs ih =>
    have hstep : set_handlers tbl (c :: cs) h = set_handlers (set_handler tbl c h) cs h := rfl
    rw [hstep, ih]
    by_cases h1 : x ∈ cs
    · simp [h1]
    · by_cases h2 : x = c
      · simp [h2, set_handler]
      · simp [h1, h2, set_handler]

/-- The table that `register_defaults` leaves, entry by entry: a later `set_handler`
replaces an earlier one, so the last registration of a byte is tested first. -/
theorem register_defaults_apply (c : Char) :
    register_defaults c =
      if c ∈ ",;:()\x7b\x7d[]".toList then some HandlerKind.Punct
      else if c ∈ "+-*/%<>=!&|^~?:.".toList then some HandlerKind.Operator
      else if c = '/' then some HandlerKind.Slash
      else if c = '\'' then some HandlerKind.Char
      else if c = '"' then some HandlerKind.String
      else if c = '.' then some HandlerKind.Number
      else if c.isDigit = true then some HandlerKind.Number
      else if c = '_' then some HandlerKind.Identifier
      else if c.isUpper = true then some HandlerKind.Identifier
      else if c.isLower = true then some HandlerKind.Identifier
      else if c = '\n' then some HandlerKind.Newline
      else if c = '\r' then some HandlerKind.Whitespace
      else if c = '\t' then some HandlerKind.Whitespace
      else if c = ' ' then some HandlerKind.Whitespace
      else none := by
  unfold register_defaults
  simp only [set_handlers_apply, set_handler, mem_lower_range, mem_upper_range, mem_digit_range]

theorem ne_of_class {p : Char → Bool} {c d : Char} (hc : p c = true) (hd : p d = false) :
    c ≠ d := by
  intro h
  rw [h, hd] at hc
  cases hc

theorem register_defaults_digit (c : Char) (h : c.isDigit = true) :
    register_defaults c = some HandlerKind.Number := by
  have n (d : Char) (hd : d.isDigit = false) : c ≠ d := ne_of_class h hd
  rw [register_defaults_apply]
  simp [n ',' (by decide), n ';' (by decide), n ':' (by decide), n '(' (by decide),
    n ')' (by decide), n '\x7b' (by decide), n '\x7d' (by decide), n '[' (by decide),
    n ']' (by decide), n '+' (by decide), n '-' (by decide), n '*' (by decide),
    n '/' (by decide), n '%' (by decide), n '<' (by decide), n '>' (by decide),
    n '=' (by decide), n '!' (by decide), n '&' (by decide), n '|' (by decide),
    n '^' (by decide), n '~' (by decide), n '?' (by decide), n '.' (by decide),
    n '\'' (by decide), n '"' (by decide), h]

theorem register_defaults_number (c : Char)
    (h : register_defaults c = some HandlerKind.Number) : c.isDigit = true := by
  rw [register_defaults_apply] at h
  by_cases h1 : c ∈ ",;:()\x7b\x7d[]".toList
  · rw [if_pos h1] at h
    cases h
  rw [if_neg h1] at h
  by_cases h2 : c ∈ "+-*/%<>=!&|^~?:.".toList
  · rw [if_pos h2] at h
    cases h
  rw [if_neg h2] at h
  by_cases h3 : c = '/'
  · rw [if_pos h3] at h
    cases h
  rw [if_neg h3] at h
  by_cases h4 : c = '\''
  · rw [if_pos h4] at h
    cases h
  rw [if_neg h4] at h
  by_cases h5 : c = '"'
  · rw [if_pos h5] at h
    cases h
  rw [if_neg h5] at h
  by_cases h6 : c = '.'
  · exact absurd (by rw [h6]; decide) h2
  rw [if_neg h6] at h
  by_cases h7 : c.isDigit = true
  · exact h7
  rw [if_neg h7] at h
  by_cases h8 : c = '_'
  · rw [if_pos h8] at h
    cases h
  rw [if_neg h8] at h
  by_cases h9 : c.isUpper = true
  · rw [if_pos h9] at h
    cases h
  rw [if_neg h9] at h
  by_cases h10 : c.isLower = true
  · rw [if_pos h10] at h
    cases h
  rw [if_neg h10] at h
  by_cases h11 : c = '\n'
  · rw [if_pos h11] at h
    cases h
  rw [if_neg h11] at h
  by_cases h12 : c = '\r'
  · rw [if_pos h12] at h
    cases h
  rw [if_neg h12] at h
  by_cases h13 : c = '\t'
  · rw [if_pos h13] at h
    cases h
  rw [if_neg h13] at h
  by_cases h14 : c = ' '
  · rw [if_pos h14] at h
    cases h
  rw [if_neg h14] at h
  cases h

/-! ## One iteration of the top-level loop -/

theorem handler_scan_spec (stold_ok : List Char → Bool) (k : Option HandlerKind) (lx : Lexer)
    (r : Lexer × Option Token) (h : Handler.scan stold_ok k lx = .ok r) :
    (Steps lx r.1 ∨ (k = some HandlerKind.Number ∧ (∃ t, r.2 = some t ∧ is_numeric t) ∧
      Steps (lx.retreat_one.consume_while [] Char.isDigit).1 r.1)) ∧ TokenAt r := by
  match k with
  | none => cases h
  | some HandlerKind.Whitespace =>
    exact ⟨Or.inl (whitespace_scan_spec lx r h).1, (whitespace_scan_spec lx r h).2⟩
  | some HandlerKind.Newline =>
    exact ⟨Or.inl (newline_scan_spec lx r h).1, (newline_scan_spec lx r h).2⟩
  | some HandlerKind.Identifier =>
    exact ⟨Or.inl (identifier_scan_spec lx r h).1, (identifier_scan_spec lx r h).2⟩
  | some HandlerKind.Number =>
    obtain ⟨h1, h2, h4⟩ := number_scan_spec stold_ok lx r h
    refine ⟨?_, h2⟩
    rcases h1 with h1 | ⟨_, h3⟩
    · exact Or.inl h1
    · exact Or.inr ⟨rfl, h4, h3⟩
  | some HandlerKind.String =>
    exact ⟨Or.inl (string_scan_spec lx r h).1, (string_scan_spec lx r h).2⟩
  | some HandlerKind.Char =>
    exact ⟨Or.inl (char_scan_spec lx r h).1, (char_scan_spec lx r h).2⟩
  | some HandlerKind.Slash =>
    exact ⟨Or.inl (slash_scan_spec lx r h).1, (slash_scan_spec lx r h).2⟩
  | some HandlerKind.Operator =>
    exact ⟨Or.inl (operator_scan_spec lx r h).1, (operator_scan_spec lx r h).2⟩
  | some HandlerKind.Punct =>
    exact ⟨Or.inl (punct_scan_spec lx r h).1, (punct_scan_spec lx r h).2⟩

namespace Lexer

theorem peek_congr (a b : Lexer) (n : Nat) (h1 : a.src_ = b.src_)
    (h2 : a.current_ = b.current_) : a.peek n = b.peek n := by
  unfold peek
  rw [h1, h2]

theorem is_at_end_congr (a b : Lexer) (h1 : a.src_ = b.src_)
    (h2 : a.current_ = b.current_) : a.is_at_end = b.is_at_end := by
  unfold is_at_end
  rw [h1, h2]

theorem retreat_one_src (lx : Lexer) : lx.retreat_one.src_ = lx.src_ := by
  unfold retreat_one
  split <;> rfl

theorem retreat_one_keep (lx : Lexer) : lx.retreat_one.keep_comments_ = lx.keep_comments_ := by
  unfold retreat_one
  split <;> rfl

theorem retreat_one_start (lx : Lexer) : lx.retreat_one.start_ = lx.start_ := by
  unfold retreat_one
  split <;> rfl

theorem retreat_one_token_col (lx : Lexer) : lx.retreat_one.token_col_ = lx.token_col_ := by
  unfold retreat_one
  split <;> rfl

theorem retreat_one_current (lx : Lexer) : lx.retreat_one.current_ = lx.current_ - 1 := by
  unfold retreat_one
  split
  · rename_i h
    rw [h]
  · rfl

theorem consume_while_first (lx : Lexer) (out : List Char) (pred : Char → Bool)
    (h1 : lx.is_at_end = false) (h2 : pred (lx.peek 0) = true) :
    lx.consume_while out pred = lx.advance.2.consume_while (out ++ [lx.advance.1]) pred := by
  have hlt := (is_at_end_false_iff lx).1 h1
  have hfuel : lx.src_.length - lx.current_ =
      (lx.advance.2.src_.length - lx.advance.2.current_) + 1 := by
    rw [advance_src, advance_current lx h1]
    omega
  unfold consume_while
  rw [hfuel]
  conv => lhs; unfold consume_while_loop
  rw [h1, h2]
  rfl

theorem mark_advance_retreat_current (lx : Lexer) (h : lx.is_at_end = false) :
    lx.mark.advance.2.retreat_one.current_ = lx.current_ := by
  have h1 : lx.mark.is_at_end = false := h
  rw [retreat_one_current, advance_current _ h1]
  rfl

end Lexer

/-- After the first digit was consumed by `tokenize` and given back by `retreat_one`, the
`consume_while` of the number strategy takes it again: the cursor passes the token start. -/
theorem number_rescan_progress (lx : Lexer) (h : lx.is_at_end = false)
    (hd : (lx.mark.advance.1).isDigit = true) :
    lx.current_ < (lx.mark.advance.2.retreat_one.consume_while [] Char.isDigit).1.current_ := by
  have hcur := Lexer.mark_advance_retreat_current lx h
  have hsrc : lx.mark.advance.2.retreat_one.src_ = lx.src_ := by
    rw [Lexer.retreat_one_src, Lexer.advance_src]
    rfl
  have hend : lx.mark.advance.2.retreat_one.is_at_end = false := by
    rw [Lexer.is_at_end_congr _ lx hsrc hcur]
    exact h
  have hpeek : lx.mark.advance.2.retreat_one.peek 0 = lx.mark.advance.1 := by
    rw [Lexer.peek_congr _ lx.mark 0 hsrc hcur, Lexer.advance_fst]
  rw [Lexer.consume_while_first _ _ _ hend (by rw [hpeek]; exact hd)]
  have h1 := (consume_while_steps lx.mark.advance.2.retreat_one.advance.2
    ([] ++ [lx.mark.advance.2.retreat_one.advance.1]) Char.isDigit).current_le
  rw [Lexer.advance_current _ hend, hcur] at h1
  omega

/-- What one iteration of the loop of `tokenize` does to the cursor. -/
theorem tokenize_step_spec (stold_ok : List Char → Bool) (lx : Lexer)
    (r : Lexer × Option Token) (hend : lx.is_at_end = false)
    (h : tokenize_step stold_ok lx = .ok r) :
    r.1.src_ = lx.src_ ∧ r.1.keep_comments_ = lx.keep_comments_ ∧
    r.1.start_ = lx.current_ ∧ r.1.token_col_ = lx.col_ ∧
    lx.current_ < r.1.current_ ∧ r.1.current_ ≤ lx.src_.length ∧ TokenAt r := by
  unfold tokenize_step at h
  obtain ⟨hs, ht⟩ := handler_scan_spec stold_ok _ _ r h
  have hend1 : lx.mark.is_at_end = false := hend
  have hlt := (Lexer.is_at_end_false_iff lx).1 hend
  have hadv : Steps lx.mark lx.mark.advance.2 := Steps.one _
  have hcur1 : lx.mark.advance.2.current_ = lx.current_ + 1 := Lexer.advance_current _ hend1
  rcases hs with hs | ⟨hk, _, hs⟩
  · have hall := Steps.trans hadv hs
    refine ⟨hall.src, hall.keep, hall.start, hall.token_col, ?_, ?_, ht⟩
    · have := hs.current_le
      omega
    · have := hall.le_length (Nat.le_of_lt hlt)
      rw [hall.src] at this
      exact this
  · have hd := register_defaults_number _ hk
    have hprog := number_rescan_progress lx hend hd
    have hbase := consume_while_steps lx.mark.advance.2.retreat_one [] Char.isDigit
    have hall := Steps.trans hbase hs
    have hsrc : lx.mark.advance.2.retreat_one.src_ = lx.src_ := by
      rw [Lexer.retreat_one_src, Lexer.advance_src]
      rfl
    refine ⟨?_, ?_, ?_, ?_, ?_, ?_, ht⟩
    · rw [hall.src, hsrc]
    · rw [hall.keep, Lexer.retreat_one_keep, Lexer.advance_keep]
      rfl
    · rw [hall.start, Lexer.retreat_one_start, Lexer.advance_start]
      rfl
    · rw [hall.token_col, Lexer.retreat_one_token_col, Lexer.advance_token_col]
      rfl
    · have := hs.current_le
      omega
    · have := hall.le_length (by
        rw [hsrc, Lexer.mark_advance_retreat_current lx hend]
        exact Nat.le_of_lt hlt)
      rw [hall.src, hsrc] at this
      exact this

/-! ## The top-level loop -/

theorem push_token_no_eof (tokens : List Token) (r : Lexer × Option Token)
    (h1 : ∀ t ∈ tokens, t.type ≠ TokenType.EOF_T) (h2 : TokenAt r) :
    ∀ t ∈ push_token tokens r.2, t.type ≠ TokenType.EOF_T := by
  intro t ht
  cases hr : r.2 with
  | none =>
    rw [hr] at ht
    exact h1 t ht
  | some u =>
    rw [hr] at ht
    rcases List.mem_append.1 ht with h | h
    · exact h1 t h
    · rw [List.mem_singleton.1 h]
      exact (h2 u hr).1

theorem tokenize_loop_shape (stold_ok : List Char → Bool) (fuel : Nat) (lx : Lexer)
    (tokens out : List Token) (h : tokenize_loop stold_ok fuel lx tokens = some (.ok out))
    (hno : ∀ t ∈ tokens, t.type ≠ TokenType.EOF_T) :
    ∃ body l c, out = body ++ [TokenFactory.make_eof l c] ∧
      ∀ t ∈ body, t.type ≠ TokenType.EOF_T := by
  induction fuel generalizing lx tokens with
  | zero =>
    unfold tokenize_loop at h
    split at h
    · cases h
      exact ⟨tokens, _, _, rfl, hno⟩
    · cases h
  | succ n ih =>
    unfold tokenize_loop at h
    split at h
    · cases h
      exact ⟨tokens, _, _, rfl, hno⟩
    · rename_i hend
      split at h
      · cases h
      · rename_i r hr
        have hspec := tokenize_step_spec stold_ok lx r (by simpa using hend) hr
        exact ih _ _ h (push_token_no_eof tokens r hno hspec.2.2.2.2.2.2)

theorem tokenize_loop_fuel (stold_ok : List Char → Bool) (fuel : Nat) (lx : Lexer)
    (tokens : List Token) (hf : lx.src_.length - lx.current_ ≤ fuel) :
    tokenize_loop stold_ok fuel lx tokens ≠ none := by
  induction fuel generalizing lx tokens with
  | zero =>
    unfold tokenize_loop
    have hend : lx.is_at_end = true := (Lexer.is_at_end_true_iff lx).2 (by omega)
    rw [hend]
    simp
  | succ n ih =>
    unfold tokenize_loop
    split
    · simp
    · rename_i hend
      split
      · simp
      · rename_i r hr
        have hspec := tokenize_step_spec stold_ok lx r (by simpa using hend) hr
        apply ih
        rw [hspec.1]
        have := hspec.2.2.2.2.1
        omega

/-- C1. Whenever `tokenize` returns a token sequence, the sequence is not empty, its
last token is the EOF token, and no token before the last has type EOF. -/
theorem tokenize_ends_with_single_eof (stold_ok : List Char → Bool) (src : List Char)
    (keep_comments : Bool) (tokens : List Token)
    (h : tokenize stold_ok src keep_comments = some (.ok tokens)) :
    tokens ≠ [] ∧
    (∃ t, tokens.getLast? = some t ∧ t.type = TokenType.EOF_T) ∧
    ∀ t ∈ tokens.dropLast, t.type ≠ TokenType.EOF_T := by
  unfold tokenize at h
  obtain ⟨body, l, c, hout, hbody⟩ :=
    tokenize_loop_shape stold_ok _ _ _ _ h (by intro t ht; cases ht)
  subst hout
  refine ⟨by simp, ⟨TokenFactory.make_eof l c, by simp, rfl⟩, ?_⟩
  rw [List.dropLast_concat]
  exact hbody

theorem tokenize_ends_with_single_eof_witness :
    tokenize stold_any "x = 1\n".toList true ≠ none ∧
    ∀ t ∈ [TokenFactory.make_ident ['x'] 1 1, TokenFactory.make_operator ['='] 1 3,
        TokenFactory.make_int_literal ['1'] 1 1 5, TokenFactory.make_newline 2 5,
        TokenFactory.make_eof 2 1].dropLast, t.type ≠ TokenType.EOF_T :=
  ⟨by decide, (tokenize_ends_with_single_eof stold_any "x = 1\n".toList true
    [TokenFactory.make_ident ['x'] 1 1, TokenFactory.make_operator ['='] 1 3,
      TokenFactory.make_int_literal ['1'] 1 1 5, TokenFactory.make_newline 2 5,
      TokenFactory.make_eof 2 1] (by decide)).2.2⟩

/-- C2. `tokenize` terminates on every source (the loop never runs out of its
`src.length` iterations), because every iteration that does not fail leaves the cursor
strictly after the place it started from and at most at the end of the buffer; in the
number strategy, which is reached on digits only, the `consume_while` that follows
`retreat_one` passes the token start again. -/
theorem tokenize_terminates (stold_ok : List Char → Bool) :
    (∀ (src : List Char) (keep_comments : Bool), tokenize stold_ok src keep_comments ≠ none) ∧
    (∀ (lx : Lexer) (r : Lexer × Option Token), lx.is_at_end = false →
      tokenize_step stold_ok lx = .ok r →
      lx.current_ < r.1.current_ ∧ r.1.current_ ≤ lx.src_.length ∧ r.1.src_ = lx.src_) ∧
    (∀ lx : Lexer, lx.is_at_end = false →
      register_defaults lx.mark.advance.1 = some HandlerKind.Number →
      (lx.mark.advance.1).isDigit = true ∧
      lx.current_ <
        (lx.mark.advance.2.retreat_one.consume_while [] Char.isDigit).1.current_) := by
  refine ⟨?_, ?_, ?_⟩
  · intro src keep_comments
    exact tokenize_loop_fuel stold_ok _ _ _ (by simp [Lexer.init])
  · intro lx r hend h
    have hspec := tokenize_step_spec stold_ok lx r hend h
    exact ⟨hspec.2.2.2.2.1, hspec.2.2.2.2.2.1, hspec.1⟩
  · intro lx hend hk
    have hd := register_defaults_number _ hk
    exact ⟨hd, number_rescan_progress lx hend hd⟩

theorem tokenize_terminates_witness :
    (⟨"ab 12".toList, false, 0, 3, 1, 4, 1⟩ : Lexer).current_ <
      ((⟨"ab 12".toList, false, 0, 3, 1, 4, 1⟩ : Lexer).mark.advance.2.retreat_one.consume_while
        [] Char.isDigit).1.current_ :=
  ((tokenize_terminates stold_any).2.2 ⟨"ab 12".toList, false, 0, 3, 1, 4, 1⟩
    (by decide) (by decide)).2

/-! ## Scanning a run of characters -/

theorem drop_cons_facts (l : List Char) (n : Nat) (x : Char) (t : List Char)
    (h : l.drop n = x :: t) : n < l.length ∧ l.getD n NUL = x ∧ l.drop (n + 1) = t := by
  induction l generalizing n with
  | nil => simp at h
  | cons a l ih =>
    cases n with
    | zero =>
      simp only [List.drop_zero, List.cons.injEq] at h
      refine ⟨by simp, ?_, ?_⟩
      · rw [List.getD_cons_zero]
        exact h.1
      · simpa using h.2
    | succ m =>
      rw [List.drop_succ_cons] at h
      obtain ⟨h1, h2, h3⟩ := ih m h
      refine ⟨by simpa using h1, ?_, ?_⟩
      · rw [List.getD_cons_succ]
        exact h2
      · rw [List.drop_succ_cons]
        exact h3

namespace Lexer

theorem consume_while_stop (lx : Lexer) (out : List Char) (pred : Char → Bool)
    (h : lx.is_at_end = true ∨ pred (lx.peek 0) = false) :
    lx.consume_while out pred = (lx, out) := by
  unfold consume_while
  cases lx.src_.length - lx.current_ with
  | zero => rfl
  | succ n =>
    unfold consume_while_loop
    rcases h with h | h
    · rw [h]
      rfl
    · rw [h]
      simp

theorem peek_at_end (lx : Lexer) (n : Nat) (h : lx.is_at_end = true) : lx.peek n = NUL := by
  have h1 := (is_at_end_true_iff lx).1 h
  unfold peek
  dsimp only
  rw [if_pos (by omega)]

theorem peek_zero_of_drop (lx : Lexer) (x : Char) (t : List Char)
    (h : lx.src_.drop lx.current_ = x :: t) : lx.peek 0 = x := by
  obtain ⟨h1, h2, _⟩ := drop_cons_facts _ _ _ _ h
  unfold peek
  dsimp only
  rw [Nat.add_zero, if_neg (by omega)]
  exact h2

theorem advance_of_drop (lx : Lexer) (x : Char) (t : List Char)
    (h : lx.src_.drop lx.current_ = x :: t) (hx : x ≠ '\n') :
    lx.advance = (x, { lx with current_ := lx.current_ + 1, col_ := lx.col_ + 1 }) := by
  obtain ⟨h1, h2, _⟩ := drop_cons_facts _ _ _ _ h
  have hend : lx.is_at_end = false := (is_at_end_false_iff lx).2 h1
  unfold advance
  rw [hend]
  simp only [Bool.false_eq_true, if_false]
  rw [h2, if_neg hx]

theorem advance_newline_of_drop (lx : Lexer) (t : List Char)
    (h : lx.src_.drop lx.current_ = '\n' :: t) :
    lx.advance =
      ('\n', { lx with current_ := lx.current_ + 1, line_ := lx.line_ + 1, col_ := 1 }) := by
  obtain ⟨h1, h2, _⟩ := drop_cons_facts _ _ _ _ h
  have hend : lx.is_at_end = false := (is_at_end_false_iff lx).2 h1
  unfold advance
  rw [hend]
  simp only [Bool.false_eq_true, if_false]
  rw [h2, if_pos rfl]

/-- `consume_while` on a cursor that stands before a run of characters accepted by `pred`,
none of them a newline, followed by the end of the buffer or by a rejected character:
the whole run is consumed and appended, and the column moves by its length. -/
theorem consume_while_run (pred : Char → Bool) (run rest : List Char) (lx : Lexer)
    (out : List Char) (hsrc : lx.src_.drop lx.current_ = run ++ rest)
    (hrun : ∀ x ∈ run, pred x = true ∧ x ≠ '\n')
    (hrest : rest = [] ∨ ∃ y ys, rest = y :: ys ∧ pred y = false) :
    lx.consume_while out pred =
      ({ lx with current_ := lx.current_ + run.length, col_ := lx.col_ + run.length },
        out ++ run) := by
  induction run generalizing lx out with
  | nil =>
    rw [consume_while_stop]
    · simp
    · rcases hrest with h | ⟨y, ys, h, hy⟩
      · left
        rw [h] at hsrc
        simp only [List.append_nil, List.drop_eq_nil_iff] at hsrc
        exact (is_at_end_true_iff lx).2 hsrc
      · right
        rw [h] at hsrc
        rw [peek_zero_of_drop lx y ys (by simpa using hsrc)]
        exact hy
  | cons x xs ih =>
    have hx := hrun x (List.mem_cons_self _ _)
    have hd : lx.src_.drop lx.current_ = x :: (xs ++ rest) := by simpa using hsrc
    obtain ⟨h1, _, h3⟩ := drop_cons_facts _ _ _ _ hd
    have hend : lx.is_at_end = false := (is_at_end_false_iff lx).2 h1
    rw [consume_while_first lx out pred hend (by rw [peek_zero_of_drop lx x _ hd]; exact hx.1),
      advance_of_drop lx x _ hd hx.2]
    rw [ih _ _ h3 (fun y hy => hrun y (List.mem_cons_of_mem _ hy))]
    simp only [List.length_cons, List.append_assoc, List.singleton_append, Prod.mk.injEq,
      and_true]
    congr 1 <;> omega

end Lexer

/-! ## Words and digit runs -/

theorem tokenize_loop_at_end (stold_ok : List Char → Bool) (fuel : Nat) (lx : Lexer)
    (tokens : List Token) (h : lx.is_at_end = true) :
    tokenize_loop stold_ok fuel lx tokens =
      some (.ok (tokens ++ [TokenFactory.make_eof lx.line_ lx.col_])) := by
  cases fuel with
  | zero =>
    unfold tokenize_loop
    rw [if_pos h]
  | succ n =>
    unfold tokenize_loop
    rw [if_pos h]

theorem tokenize_loop_step (stold_ok : List Char → Bool) (fuel : Nat) (lx : Lexer)
    (tokens : List Token) (r : Lexer × Option Token) (h : lx.is_at_end = false)
    (hr : tokenize_step stold_ok lx = .ok r) :
    tokenize_loop stold_ok (fuel + 1) lx tokens =
      tokenize_loop stold_ok fuel r.1 (push_token tokens r.2) := by
  conv => lhs; unfold tokenize_loop
  rw [h, hr]
  rfl

theorem tokenize_loop_error (stold_ok : List Char → Bool) (fuel : Nat) (lx : Lexer)
    (tokens : List Token) (e : String) (h : lx.is_at_end = false)
    (hr : tokenize_step stold_ok lx = .error e) :
    tokenize_loop stold_ok (fuel + 1) lx tokens = some (.error e) := by
  conv => lhs; unfold tokenize_loop
  rw [h, hr]
  rfl

theorem take_succ_getD (l : List Char) (n : Nat) (h : n < l.length) :
    l.take (n + 1) = l.take n ++ [l.getD n NUL] := by
  rw [List.take_succ, List.getD_eq_getElem _ _ h, List.getElem?_eq_getElem h]
  rfl

theorem line_of_succ (src : List Char) (n : Nat) (h : n < src.length) :
    line_of src (n + 1) =
      if src.getD n NUL = '\n' then line_of src n + 1 else line_of src n := by
  unfold line_of
  rw [take_succ_getD src n h, List.count_append]
  by_cases hc : src.getD n NUL = '\n'
  · rw [if_pos hc, hc]
    simp
    omega
  · rw [if_neg hc]
    have : List.count '\n' [src.getD n NUL] = 0 := by
      rw [List.count_eq_zero]
      intro hm
      exact hc (List.mem_singleton.1 hm).symm
    omega

theorem column_of_succ (src : List Char) (n : Nat) (h : n < src.length) :
    column_of src (n + 1) =
      if src.getD n NUL = '\n' then 1 else column_of src n + 1 := by
  unfold column_of
  rw [take_succ_getD src n h, List.reverse_append, List.reverse_singleton,
    List.singleton_append]
  by_cases hc : src.getD n NUL = '\n'
  · rw [if_pos hc, List.takeWhile_cons_of_neg (by
      simp only [decide_eq_true_eq, ne_eq, not_not]
      exact hc)]
    rfl
  · rw [if_neg hc, List.takeWhile_cons_of_pos (by
      simp only [decide_eq_true_eq, ne_eq]
      exact hc), List.length_cons]
    omega

theorem advance_lineOK (lx : Lexer) (h : LineOK lx) : LineOK lx.advance.2 := by
  unfold LineOK at *
  cases hend : lx.is_at_end
  · have hlt := (Lexer.is_at_end_false_iff lx).1 hend
    rw [Lexer.advance_src, Lexer.advance_current lx hend, line_of_succ _ _ hlt]
    unfold Lexer.advance
    rw [hend]
    simp only [Bool.false_eq_true, if_false]
    split
    · exact congrArg (· + 1) h
    · exact h
  · rw [Lexer.advance_at_end lx hend]
    exact h

theorem advance_colOK (lx : Lexer) (h : ColOK lx) : ColOK lx.advance.2 := by
  unfold ColOK at *
  cases hend : lx.is_at_end
  · have hlt := (Lexer.is_at_end_false_iff lx).1 hend
    rw [Lexer.advance_src, Lexer.advance_current lx hend, column_of_succ _ _ hlt]
    unfold Lexer.advance
    rw [hend]
    simp only [Bool.false_eq_true, if_false]
    split
    · rfl
    · exact congrArg (· + 1) h
  · rw [Lexer.advance_at_end lx hend]
    exact h

theorem Steps.preserve (P : Lexer → Prop) (hP : ∀ lx, P lx → P lx.advance.2) {a b : Lexer}
    (h : Steps a b) (ha : P a) : P b := by
  induction h with
  | refl _ => exact ha
  | adv _ ih => exact ih (hP _ ha)

/-! ## `retreat_one` recomputes the position -/

/-- C4 fails on `a 1`: the source has no newline and three characters, so the position
after its last character is line 1, column 4, but `retreat_one`, called at offset 2 on
the first line, sets the column to the offset instead of the offset plus one, and the EOF
token is placed at column 3. -/
theorem eof_column_after_number (stold_ok : List Char → Bool) (keep_comments : Bool) :
    tokenize stold_ok "a 1".toList keep_comments =
      some (.ok [TokenFactory.make_ident ['a'] 1 1, TokenFactory.make_int_literal ['1'] 1 1 3,
        TokenFactory.make_eof 1 3]) ∧
    line_of "a 1".toList "a 1".toList.length = 1 ∧
    column_of "a 1".toList "a 1".toList.length = 4 ∧
    (⟨"a 1".toList, keep_comments, 2, 3, 1, 4, 3⟩ : Lexer).retreat_one.col_ = 2 ∧
    column_of "a 1".toList 2 = 3 := by
  refine ⟨?_, by decide, by decide, rfl, by decide⟩
  cases keep_comments <;> rfl

/-- C7 fails on `.5`: `register_defaults` registers the number strategy for the dot and
then replaces it with the operator strategy, so the dot is an OPERATOR token and `5` an
INT literal, although the number strategy, run on the same cursor, returns the FLOAT
literal with lexeme `.5`. -/
theorem leading_dot_is_operator (stold_ok : List Char → Bool) (keep_comments : Bool) :
    register_defaults '.' = some HandlerKind.Operator ∧
    tokenize stold_ok ".5".toList keep_comments =
      some (.ok [TokenFactory.make_operator ['.'] 1 1,
        TokenFactory.make_int_literal ['5'] 5 1 2, TokenFactory.make_eof 1 2]) ∧
    NumberHandler.scan stold_any (Lexer.init ".5".toList keep_comments).mark.advance.2 =
      .ok (⟨".5".toList, keep_comments, 0, 2, 1, 3, 1⟩,
        some (TokenFactory.make_float_literal ".5".toList 1 1)) := by
  refine ⟨by decide, ?_, ?_⟩ <;> cases keep_comments <;> rfl

/-- C8 fails on `::` and `:=`: `register_defaults` registers the operator strategy for
the colon and then replaces it with the punctuation strategy, so every colon is a PUNCT
token, although the operator strategy, run on the same cursor, returns the OPERATOR
token `::`. -/
theorem colon_is_punct (stold_ok : List Char → Bool) (keep_comments : Bool) :
    register_defaults ':' = some HandlerKind.Punct ∧
    tokenize stold_ok "::".toList keep_comments =
      some (.ok [TokenFactory.make_punct ':' 1 1, TokenFactory.make_punct ':' 1 2,
        TokenFactory.make_eof 1 3]) ∧
    tokenize stold_ok ":=".toList keep_comments =
      some (.ok [TokenFactory.make_punct ':' 1 1, TokenFactory.make_operator ['='] 1 2,
        TokenFactory.make_eof 1 3]) ∧
    OperatorHandler.scan (Lexer.init "::".toList keep_comments).mark.advance.2 =
      .ok (⟨"::".toList, keep_comments, 0, 2, 1, 3, 1⟩,
        some (TokenFactory.make_operator "::".toList 1 1)) := by
  refine ⟨by decide, ?_, ?_, ?_⟩ <;> cases keep_comments <;> rfl

/-- C9 fails on `// hi`, newline, `x`: `register_defaults` registers the slash strategy
for `/` and then replaces it with the operator strategy, so with either value of
`keep_comments` the two slashes are OPERATOR tokens and `hi` is an IDENT, although the
slash strategy, run on the same cursor, skips the comment up to the newline. -/
theorem line_comment_is_not_skipped (stold_ok : List Char → Bool) (keep_comments : Bool) :
    register_defaults '/' = some HandlerKind.Operator ∧
    tokenize stold_ok "// hi\nx".toList keep_comments =
      some (.ok [TokenFactory.make_operator ['/'] 1 1, TokenFactory.make_operator ['/'] 1 2,
        TokenFactory.make_ident "hi".toList 1 4, TokenFactory.make_newline 2 6,
        TokenFactory.make_ident ['x'] 2 1, TokenFactory.make_eof 2 2]) ∧
    SlashHandler.scan (Lexer.init "// hi\nx".toList false).mark.advance.2 =
      .ok (⟨"// hi\nx".toList, false, 0, 5, 1, 6, 1⟩, none) ∧
    SlashHandler.scan (Lexer.init "// hi\nx".toList true).mark.advance.2 =
      .ok (⟨"// hi\nx".toList, true, 0, 5, 1, 6, 1⟩,
        some (TokenFactory.make_comment "/ hi".toList 1 1)) := by
  refine ⟨by decide, ?_, rfl, rfl⟩
  cases keep_comments <;> rfl

/-- C10 fails on a double quote followed by `abc`: the loop of the string strategy is
left at the end of the buffer without a closing quote having been seen, and the strategy
returns a STRING literal instead of failing. -/
theorem unterminated_string_is_accepted (stold_ok : List Char → Bool) (keep_comments : Bool) :
    tokenize stold_ok "\"abc".toList keep_comments =
      some (.ok [TokenFactory.make_string_literal "\"abc".toList "abc".toList 1 1,
        TokenFactory.make_eof 1 5]) := by
  cases keep_comments <;> rfl

/-! ## Operators -/

theorem multiop_second (c d : Char) (h : Lexer.is_multiop [c, d] = true) :
    d ≠ NUL ∧ d ≠ '\n' := by
  have hm : [c, d] ∈ multi_ops_set := by
    unfold Lexer.is_multiop at h
    rw [List.contains, List.elem_iff] at h
    exact h
  simp only [multi_ops_set, String.toList, List.map_cons, List.map_nil, List.mem_cons,
    List.cons.injEq, and_true, List.mem_nil_iff, or_false] at hm
  rcases hm with ⟨_, rfl⟩ | ⟨_, rfl⟩ | ⟨_, rfl⟩ | ⟨_, rfl⟩ | ⟨_, rfl⟩ | ⟨_, rfl⟩ | ⟨_, rfl⟩ |
    ⟨_, rfl⟩ | ⟨_, rfl⟩ | ⟨_, rfl⟩ <;> decide

theorem multiop_nul (c : Char) : Lexer.is_multiop [c, NUL] = false := by
  cases h : Lexer.is_multiop [c, NUL]
  · rfl
  · exact absurd rfl (multiop_second c NUL h).1

theorem register_defaults_none (c : Char) (h : is_listed c = false) :
    register_defaults c = none := by
  unfold is_listed at h
  simp only [Bool.or_eq_false_iff, decide_eq_false_iff_not, Char.isAlpha] at h
  obtain ⟨⟨⟨⟨⟨⟨⟨⟨⟨h1, h2⟩, h3⟩, h4⟩, h5, h6⟩, h7⟩, h8⟩, h9⟩, h10⟩, h11⟩ := h
  have h11a : c ∉ "+-*/%<>=!&|^~?:.,;()\x7b\x7d[]".toList := by
    intro hm
    rw [List.contains, List.elem_eq_true_of_mem hm] at h11
    cases h11
  simp only [String.toList, List.mem_cons, List.mem_nil_iff, or_false, not_or] at h11a
  obtain ⟨a1, a2, a3, a4, a5, a6, a7, a8, a9, a10, a11, a12, a13, a14, a15, a16, a17, a18,
    a19, a20, a21, a22, a23, a24⟩ := h11a
  rw [register_defaults_apply]
  simp only [String.toList, List.mem_cons, List.mem_nil_iff, or_false, a1, a2, a3, a4, a5,
    a6, a7, a8, a9, a10, a11, a12, a13, a14, a15, a16, a17, a18, a19, a20, a21, a22, a23,
    a24, h1, h2, h3, h4, h5, h6, h7, h8, h9, h10, or_self, if_false,
    Bool.false_eq_true]

theorem current_char_after_advance (lx : Lexer) (h : lx.is_at_end = false) :
    lx.mark.advance.2.current_char = lx.mark.advance.1 := by
  have hm : lx.mark.is_at_end = false := h
  have hlt := (Lexer.is_at_end_false_iff lx).1 h
  unfold Lexer.current_char
  rw [Lexer.advance_current _ hm, Lexer.advance_src, if_neg (by omega), Lexer.advance_fst]
  unfold Lexer.peek
  dsimp only
  rw [Nat.add_zero, if_neg (by
    show ¬ lx.current_ ≥ lx.src_.length
    omega)]
  rfl

theorem what_unexpected (c : Char) :
    LexerError.what ("Unexpected character: ".toList ++ [c]) = unexpected_message c := by
  have hpre : ("Unexpected character: ".toList ++ [c]).takeWhile (fun x => decide (x ≠ NUL)) =
      "Unexpected character: ".toList ++ [c].takeWhile (fun x => decide (x ≠ NUL)) := by
    apply List.takeWhile_append_of_pos
    decide
  unfold LexerError.what unexpected_message
  rw [hpre]
  by_cases hc : c = NUL
  · rw [if_pos hc, hc]
    rfl
  · rw [if_neg hc, List.takeWhile_cons_of_pos (by simpa using hc)]
    rfl

theorem tokenize_step_unlisted (stold_ok : List Char → Bool) (lx : Lexer)
    (hend : lx.is_at_end = false) (hc : is_listed (lx.peek 0) = false) :
    tokenize_step stold_ok lx = .error (unexpected_message (lx.peek 0)) := by
  have hfst : lx.mark.advance.1 = lx.peek 0 := by
    rw [Lexer.advance_fst]
    exact Lexer.peek_congr _ _ 0 rfl rfl
  unfold tokenize_step
  rw [hfst, register_defaults_none _ hc]
  show DefaultHandler.scan lx.mark.advance.2 = _
  unfold DefaultHandler.scan
  rw [current_char_after_advance lx hend, hfst, what_unexpected]

theorem tokenize_unlisted_first (stold_ok : List Char → Bool) (c : Char) (rest : List Char)
    (keep_comments : Bool) (hc : is_listed c = false) :
    tokenize stold_ok (c :: rest) keep_comments =
      some (.error (unexpected_message c)) := by
  have hend : (Lexer.init (c :: rest) keep_comments).is_at_end = false := by
    simp [Lexer.init, Lexer.is_at_end]
  have hpeek : (Lexer.init (c :: rest) keep_comments).peek 0 = c :=
    Lexer.peek_zero_of_drop _ c rest rfl
  unfold tokenize
  rw [List.length_cons, tokenize_loop_error stold_ok _ _ _ _ hend
    (tokenize_step_unlisted stold_ok _ hend (by rw [hpeek]; exact hc)), hpeek]

theorem is_listed_ascii (c : Char) (h : is_listed c = true) : c.toNat < 128 := by
  unfold is_listed at h
  simp only [Bool.or_eq_true, decide_eq_true_eq, Char.isAlpha, Char.isUpper, Char.isLower,
    Char.isDigit, Bool.and_eq_true, ge_iff_le] at h
  rcases h with (((((((((h | h) | h) | h) | h) | h) | h) | h) | h) | h)
  · rw [h]
    decide
  · rw [h]
    decide
  · rw [h]
    decide
  · rw [h]
    decide
  · rcases h with ⟨_, h2⟩ | ⟨_, h2⟩
    · have h3 : c.toNat ≤ 90 := h2
      omega
    · have h3 : c.toNat ≤ 122 := h2
      omega
  · rw [h]
    decide
  · have h3 : c.toNat ≤ 57 := h.2
    omega
  · rw [h]
    decide
  · rw [h]
    decide
  · rw [List.contains, List.elem_iff] at h
    simp only [String.toList, List.mem_cons, List.mem_nil_iff, or_false] at h
    rcases h with h | h | h | h | h | h | h | h | h | h | h | h | h | h | h | h | h | h | h |
      h | h | h | h | h <;> rw [h] <;> decide

/-- C19 fails on the source made of the NUL byte: NUL has no strategy and `tokenize`
fails with the unexpected-character error, but the message that `what()` gives is the
fixed text alone, 22 characters, and does not name the byte. -/
theorem unexpected_nul_counterexample :
    is_listed NUL = false ∧
    tokenize stold_any [NUL] false = some (.error "Unexpected character: ") ∧
    "Unexpected character: ".length = 22 ∧
    NUL ∉ "Unexpected character: ".toList ∧
    tokenize stold_any [NUL] false ≠ some (.error ("Unexpected character: ".push NUL)) := by
  decide

/-- C19, as amended. When the loop of `tokenize` stands before a byte that is not a
blank, a newline, an ASCII letter, an underscore, an ASCII digit, a quote, or an operator
or punctuation character, the iteration fails with the unexpected-character error, and so
does the loop; the message is the fixed text followed by the byte when the byte is not
NUL, and the fixed text alone when it is NUL. A source that begins with such a byte fails
this way, and `@`, `$`, `#`, the backslash, NUL and all bytes from 0x80 on are such
bytes. -/
theorem unexpected_character (stold_ok : List Char → Bool) :
    (∀ lx : Lexer, lx.is_at_end = false → is_listed (lx.peek 0) = false →
      tokenize_step stold_ok lx = .error (unexpected_message (lx.peek 0)) ∧
      ∀ (fuel : Nat) (tokens : List Token),
        tokenize_loop stold_ok (fuel + 1) lx tokens =
          some (.error (unexpected_message (lx.peek 0)))) ∧
    (∀ (c : Char) (rest : List Char) (keep_comments : Bool), is_listed c = false →
      tokenize stold_ok (c :: rest) keep_comments =
        some (.error (unexpected_message c))) ∧
    (∀ c : Char, c ≠ NUL → unexpected_message c = "Unexpected character: ".push c) ∧
    unexpected_message NUL = "Unexpected character: " ∧
    (∀ c : Char, c = '@' ∨ c = '$' ∨ c = '#' ∨ c = '\\' ∨ c = NUL ∨ 128 ≤ c.toNat →
      is_listed c = false) := by
  refine ⟨?_, ?_, ?_, rfl, ?_⟩
  · intro lx hend hc
    have hstep := tokenize_step_unlisted stold_ok lx hend hc
    exact ⟨hstep, fun fuel tokens => tokenize_loop_error stold_ok fuel lx tokens _ hend hstep⟩
  · intro c rest keep_comments hc
    exact tokenize_unlisted_first stold_ok c rest keep_comments hc
  · intro c hc
    unfold unexpected_message
    rw [if_neg hc]
  · intro c hc
    rcases hc with h | h | h | h | h | h
    · rw [h]
      decide
    · rw [h]
      decide
    · rw [h]
      decide
    · rw [h]
      decide
    · rw [h]
      decide
    · cases hl : is_listed c
      · rfl
      · have := is_listed_ascii c hl
        omega

theorem unexpected_character_witness :
    tokenize stold_any "a @b".toList false = some (.error "Unexpected character: @") ∧
    tokenize_step stold_any ⟨"a @b".toList, false, 1, 2, 1, 3, 2⟩ =
      .error "Unexpected character: @" :=
  ⟨by decide, ((unexpected_character stold_any).1 ⟨"a @b".toList, false, 1, 2, 1, 3, 2⟩
    (by decide) (by decide)).1⟩

/-- C18 fails on each of the seven spellings: they are members of the keyword set, and
the identifier strategy run after the `#` returns the KEYWORD token, but
`register_defaults` registers no strategy for `#`, so `tokenize` fails on the first byte
with the unexpected-character error. -/
theorem preprocessor_keywords_rejected (stold_ok : List Char → Bool) (keep_comments : Bool) :
    register_defaults '#' = none ∧
    (∀ w ∈ ["#import", "#define", "#undef", "#ifdef", "#ifndef", "#else", "#endif"],
      w.toList ∈ keyword_set ∧
      tokenize stold_ok w.toList keep_comments = some (.error "Unexpected character: #")) ∧
    IdentifierHandler.scan (Lexer.init "#import".toList keep_comments).mark.advance.2 =
      .ok (⟨"#import".toList, keep_comments, 0, 7, 1, 8, 1⟩,
        some (TokenFactory.make_keyword "#import".toList 1 1)) := by
  refine ⟨by decide, ?_, ?_⟩
  · intro w hw
    simp only [List.mem_cons, List.mem_nil_iff, or_false] at hw
    rcases hw with rfl | rfl | rfl | rfl | rfl | rfl | rfl <;>
      exact ⟨by decide, tokenize_unlisted_first stold_ok '#' _ keep_comments (by decide)⟩
  · cases keep_comments <;> rfl

/-! ## Blanks and newlines -/

theorem drop_not_at_end (lx : Lexer) (rest : List Char)
    (hsrc : lx.src_.drop lx.current_ = rest) (hend : lx.is_at_end = false) :
    ∃ x r, rest = x :: r := by
  cases rest with
  | nil =>
    rw [List.drop_eq_nil_iff] at hsrc
    have := (Lexer.is_at_end_false_iff lx).1 hend
    omega
  | cons x r => exact ⟨x, r, rfl⟩

theorem whitespace_loop_blank (f : Nat) (lx : Lexer) (rest : List Char)
    (hsrc : lx.src_.drop lx.current_ = rest) :
    ∃ rest2, (WhitespaceHandler.loop f lx).src_.drop (WhitespaceHandler.loop f lx).current_
        = rest2 ∧
      (∀ x ∈ rest2, x ∈ rest) ∧ rest2.length ≤ rest.length ∧
      blank_tokens (WhitespaceHandler.loop f lx).line_ (WhitespaceHandler.loop f lx).col_ rest2
        = blank_tokens lx.line_ lx.col_ rest := by
  induction f generalizing lx rest with
  | zero => exact ⟨rest, hsrc, fun _ hx => hx, Nat.le_refl _, rfl⟩
  | succ n ih =>
    unfold WhitespaceHandler.loop
    split
    · exact ⟨rest, hsrc, fun _ hx => hx, Nat.le_refl _, rfl⟩
    · rename_i hend
      split
      · rename_i hws
        obtain ⟨w, r, hr⟩ := drop_not_at_end lx rest hsrc (by simpa using hend)
        subst hr
        rw [Lexer.peek_zero_of_drop lx w r hsrc] at hws
        have hnl : w ≠ '\n' := by
          rcases hws with h | h | h <;> rw [h] <;> decide
        rw [Lexer.advance_of_drop lx w r hsrc hnl]
        obtain ⟨rest2, h1, h2, h3, h4⟩ := ih
          { lx with current_ := lx.current_ + 1, col_ := lx.col_ + 1 } r
          (drop_cons_facts _ _ _ _ hsrc).2.2
        refine ⟨rest2, h1, fun x hx => List.mem_cons_of_mem _ (h2 x hx), ?_, ?_⟩
        · rw [List.length_cons]
          omega
        · rw [h4]
          conv => rhs; unfold blank_tokens
          rw [if_neg hnl]
      · exact ⟨rest, hsrc, fun _ hx => hx, Nat.le_refl _, rfl⟩

theorem blank_loop (stold_ok : List Char → Bool) (fuel : Nat) (lx : Lexer)
    (rest : List Char) (tokens : List Token) (hsrc : lx.src_.drop lx.current_ = rest)
    (hblank : ∀ x ∈ rest, x = ' ' ∨ x = '\t' ∨ x = '\r' ∨ x = '\n')
    (hfuel : rest.length ≤ fuel) :
    tokenize_loop stold_ok fuel lx tokens =
      some (.ok (tokens ++ blank_tokens lx.line_ lx.col_ rest)) := by
  induction fuel generalizing lx rest tokens with
  | zero =>
    have hnil : rest = [] := List.eq_nil_of_length_eq_zero (by omega)
    subst hnil
    rw [tokenize_loop_at_end _ _ _ _ ((Lexer.is_at_end_true_iff lx).2
      (List.drop_eq_nil_iff.1 hsrc))]
    rfl
  | succ n ih =>
    cases rest with
    | nil =>
      rw [tokenize_loop_at_end _ _ _ _ ((Lexer.is_at_end_true_iff lx).2
        (List.drop_eq_nil_iff.1 hsrc))]
      rfl
    | cons x r =>
      have hend : lx.is_at_end = false :=
        (Lexer.is_at_end_false_iff lx).2 (drop_cons_facts _ _ _ _ hsrc).1
      have hdrop := (drop_cons_facts _ _ _ _ hsrc).2.2
      have hmark : lx.mark.src_.drop lx.mark.current_ = x :: r := hsrc
      have hr : ∀ y ∈ r, y = ' ' ∨ y = '\t' ∨ y = '\r' ∨ y = '\n' :=
        fun y hy => hblank y (List.mem_cons_of_mem _ hy)
      have hlen : r.length ≤ n := by
        rw [List.length_cons] at hfuel
        omega
      by_cases hx : x = '\n'
      · subst hx
        rw [tokenize_loop_step stold_ok n lx tokens
          (⟨lx.src_, lx.keep_comments_, lx.current_, lx.current_ + 1, lx.line_ + 1, 1,
            lx.col_⟩,
            some (TokenFactory.make_newline (lx.line_ + 1) lx.col_)) hend (by
          unfold tokenize_step
          rw [Lexer.advance_newline_of_drop lx.mark r hmark]
          rfl)]
        rw [ih _ r _ hdrop hr hlen]
        conv => rhs; unfold blank_tokens
        rw [if_pos rfl]
        simp [push_token]
      · have hws : x = ' ' ∨ x = '\t' ∨ x = '\r' := by
          rcases hblank x (List.mem_cons_self _ _) with h | h | h | h
          · exact Or.inl h
          · exact Or.inr (Or.inl h)
          · exact Or.inr (Or.inr h)
          · exact absurd h hx
        have htab : register_defaults x = some HandlerKind.Whitespace := by
          rcases hws with h | h | h <;> rw [h] <;> decide
        obtain ⟨rest2, h1, h2, h3, h4⟩ := whitespace_loop_blank
          (lx.src_.length - (lx.current_ + 1))
          ⟨lx.src_, lx.keep_comments_, lx.current_, lx.current_ + 1, lx.line_, lx.col_ + 1,
            lx.col_⟩ r hdrop
        rw [tokenize_loop_step stold_ok n lx tokens
          (WhitespaceHandler.loop (lx.src_.length - (lx.current_ + 1))
            ⟨lx.src_, lx.keep_comments_, lx.current_, lx.current_ + 1, lx.line_, lx.col_ + 1,
              lx.col_⟩, none) hend (by
          unfold tokenize_step
          rw [Lexer.advance_of_drop lx.mark x r hmark hx, htab]
          rfl)]
        rw [ih _ rest2 _ h1 (fun y hy => hr y (h2 y hy)) (by omega), h4]
        conv => rhs; unfold blank_tokens
        rw [if_neg hx]
        rfl

theorem blank_tokens_types (line col : Nat) (rest : List Char) :
    (blank_tokens line col rest).map Token.type =
      List.replicate (rest.count '\n') TokenType.NEWLINE ++ [TokenType.EOF_T] := by
  induction rest generalizing line col with
  | nil => rfl
  | cons x r ih =>
    unfold blank_tokens
    by_cases hx : x = '\n'
    · rw [if_pos hx, hx, List.map_cons, ih, List.count_cons_self, List.replicate_succ]
      rfl
    · rw [if_neg hx, ih, List.count_cons_of_ne (fun h => hx h.symm)]

/-- C20. A source made of spaces, tabs, carriage returns and newlines only is lexed as
one NEWLINE token per newline, in the order of the newlines, followed by EOF, and nothing
else: the sequence of token types is as many NEWLINE as the source has newlines, then
EOF. -/
theorem tokenize_blank (stold_ok : List Char → Bool) (keep_comments : Bool)
    (src : List Char) (h : ∀ x ∈ src, x = ' ' ∨ x = '\t' ∨ x = '\r' ∨ x = '\n') :
    tokenize stold_ok src keep_comments = some (.ok (blank_tokens 1 1 src)) ∧
    (blank_tokens 1 1 src).map Token.type =
      List.replicate (src.count '\n') TokenType.NEWLINE ++ [TokenType.EOF_T] := by
  refine ⟨?_, blank_tokens_types 1 1 src⟩
  unfold tokenize
  rw [blank_loop stold_ok src.length (Lexer.init src keep_comments) src [] rfl h
    (Nat.le_refl _)]
  rfl

theorem tokenize_blank_witness :
    tokenize stold_any " \n\n\t \r\n ".toList false =
      some (.ok [TokenFactory.make_newline 2 2, TokenFactory.make_newline 3 1,
        TokenFactory.make_newline 4 4, TokenFactory.make_eof 4 2]) :=
  (tokenize_blank stold_any false " \n\n\t \r\n ".toList (by decide)).1

/-! ## Char literals -/

theorem advance_of_cons (lx : Lexer) (x : Char) (t : List Char)
    (h : lx.src_.drop lx.current_ = x :: t) :
    lx.advance.1 = x ∧ lx.advance.2.src_.drop lx.advance.2.current_ = t ∧
      lx.advance.2.current_ = lx.current_ + 1 := by
  obtain ⟨h1, _, h3⟩ := drop_cons_facts _ _ _ _ h
  have hend : lx.is_at_end = false := (Lexer.is_at_end_false_iff lx).2 h1
  refine ⟨?_, ?_, Lexer.advance_current lx hend⟩
  · rw [Lexer.advance_fst]
    exact Lexer.peek_zero_of_drop lx x t h
  · rw [Lexer.advance_src, Lexer.advance_current lx hend]
    exact h3

theorem advance_of_nil (lx : Lexer) (h : lx.src_.drop lx.current_ = []) :
    lx.advance = (NUL, lx) ∧ lx.peek 0 = NUL := by
  have hend : lx.is_at_end = true :=
    (Lexer.is_at_end_true_iff lx).2 (List.drop_eq_nil_iff.1 h)
  exact ⟨Lexer.advance_at_end lx hend, Lexer.peek_at_end lx 0 hend⟩

theorem peek_zero_cases (lx : Lexer) (rest : List Char)
    (h : lx.src_.drop lx.current_ = rest) : lx.peek 0 = rest.headD NUL := by
  cases rest with
  | nil => exact (advance_of_nil lx h).2
  | cons x t => exact Lexer.peek_zero_of_drop lx x t h

theorem lineOK_after_quote (q : Char) (hq : q ≠ '\n') (rest : List Char)
    (keep_comments : Bool) : LineOK ⟨q :: rest, keep_comments, 0, 1, 1, 2, 1⟩ := by
  unfold LineOK line_of
  simp [List.count_cons, hq]

theorem string_escape_value_eq (e : Char) :
    StringHandler.decode e = string_escape_value e := by
  by_cases h1 : e = 'n'
  · rw [h1]
    decide
  by_cases h2 : e = 't'
  · rw [h2]
    decide
  by_cases h3 : e = 'r'
  · rw [h3]
    decide
  by_cases h4 : e = '\\'
  · rw [h4]
    decide
  by_cases h5 : e = '"'
  · rw [h5]
    decide
  unfold StringHandler.decode string_escape_value
  rw [if_neg h1, if_neg h2, if_neg h3, if_neg h4, if_neg h5]
  split <;> first | rfl | contradiction

theorem string_loop_body (body : List StrItem) (hwf : ∀ item ∈ body, item.wellformed)
    (fuel : Nat) (lx : Lexer) (raw out tail : List Char)
    (hsrc : lx.src_.drop lx.current_ = body_text body ++ tail)
    (hfuel : lx.src_.length - lx.current_ ≤ fuel) :
    ∃ fuel1 lx1, Steps lx lx1 ∧ lx1.src_.drop lx1.current_ = tail ∧
      lx1.src_.length - lx1.current_ ≤ fuel1 ∧
      lx1.current_ = lx.current_ + (body_text body).length ∧
      StringHandler.loop fuel lx raw out =
        StringHandler.loop fuel1 lx1 (raw ++ body_text body) (out ++ body_value body) := by
  induction body generalizing fuel lx raw out with
  | nil =>
    refine ⟨fuel, lx, Steps.refl _, by simpa [body_text] using hsrc, hfuel, by simp [body_text],
      by simp [body_text, body_value]⟩
  | cons item items ih =>
    have hitems : ∀ it ∈ items, it.wellformed := fun it h => hwf it (List.mem_cons_of_mem _ h)
    have hitem := hwf item (List.mem_cons_self _ _)
    cases item with
    | plain c =>
      obtain ⟨hq, hb, hn⟩ := hitem
      have hd : lx.src_.drop lx.current_ = c :: (body_text items ++ tail) := by
        simpa [body_text, StrItem.text] using hsrc
      obtain ⟨ha1, ha2, ha3⟩ := advance_of_cons lx c _ hd
      have hlt := (drop_cons_facts _ _ _ _ hd).1
      have hend : lx.is_at_end = false := (Lexer.is_at_end_false_iff lx).2 hlt
      cases fuel with
      | zero => omega
      | succ n =>
        obtain ⟨fuel1, lx1, h1, h2, h3, h4, h5⟩ := ih hitems n lx.advance.2 (raw ++ [c])
          (out ++ [c]) ha2 (by rw [Lexer.advance_src, ha3]; omega)
        refine ⟨fuel1, lx1, Steps.adv h1, h2, h3, ?_, ?_⟩
        · rw [h4, ha3]
          simp only [body_text, StrItem.text, List.length_append, List.length_cons,
            List.length_nil]
          omega
        · conv => lhs; unfold StringHandler.loop
          rw [if_neg (by rw [hend]; decide)]
          dsimp only
          rw [ha1, if_neg hq, if_neg hb, if_neg hn, h5]
          simp [body_text, body_value, StrItem.text, StrItem.value]
    | escape e =>
      have hd : lx.src_.drop lx.current_ = '\\' :: e :: (body_text items ++ tail) := by
        simpa [body_text, StrItem.text] using hsrc
      obtain ⟨ha1, ha2, ha3⟩ := advance_of_cons lx '\\' _ hd
      obtain ⟨hb1, hb2, hb3⟩ := advance_of_cons lx.advance.2 e _ ha2
      have hlt := (drop_cons_facts _ _ _ _ hd).1
      have hend : lx.is_at_end = false := (Lexer.is_at_end_false_iff lx).2 hlt
      cases fuel with
      | zero => omega
      | succ n =>
        obtain ⟨fuel1, lx1, h1, h2, h3, h4, h5⟩ := ih hitems n lx.advance.2.advance.2
          (raw ++ ['\\'] ++ [e]) (out ++ [StringHandler.decode e]) hb2
          (by rw [Lexer.advance_src, Lexer.advance_src, hb3, ha3]; omega)
        refine ⟨fuel1, lx1, Steps.adv (Steps.adv h1), h2, h3, ?_, ?_⟩
        · rw [h4, hb3, ha3]
          simp only [body_text, StrItem.text, List.length_append, List.length_cons,
            List.length_nil]
          omega
        · conv => lhs; unfold StringHandler.loop
          rw [if_neg (by rw [hend]; decide)]
          dsimp only
          rw [ha1, if_neg (by decide), if_pos rfl, hb1, h5, string_escape_value_eq]
          simp [body_text, body_value, StrItem.text, StrItem.value]

theorem string_scan_closed (lx : Lexer) (body : List StrItem) (tail : List Char)
    (hwf : ∀ item ∈ body, item.wellformed)
    (hsrc : lx.src_.drop lx.current_ = body_text body ++ '"' :: tail) :
    ∃ lx3, StringHandler.scan lx =
        .ok (lx3, some (TokenFactory.make_string_literal ('"' :: (body_text body ++ ['"']))
          (body_value body) lx3.line_ lx3.token_col_)) ∧
      Steps lx lx3 ∧ lx3.src_.drop lx3.current_ = tail ∧
      lx3.current_ = lx.current_ + (body_text body).length + 1 := by
  obtain ⟨fuel1, lx1, h1, h2, h3, h4, h5⟩ := string_loop_body body hwf
    (lx.src_.length - lx.current_) lx ['"'] [] ('"' :: tail) hsrc (Nat.le_refl _)
  obtain ⟨ha1, ha2, ha3⟩ := advance_of_cons lx1 '"' _ h2
  have hlt := (drop_cons_facts _ _ _ _ h2).1
  have hend : lx1.is_at_end = false := (Lexer.is_at_end_false_iff lx1).2 hlt
  refine ⟨lx1.advance.2, ?_, Steps.trans h1 (Steps.one _), ha2, by rw [ha3, h4]⟩
  unfold StringHandler.scan
  rw [h5]
  cases fuel1 with
  | zero => omega
  | succ n =>
    unfold StringHandler.loop
    rw [if_neg (by rw [hend]; decide)]
    dsimp only
    rw [ha1, if_pos rfl]
    simp

theorem string_scan_newline (lx : Lexer) (body : List StrItem) (tail : List Char)
    (hwf : ∀ item ∈ body, item.wellformed)
    (hsrc : lx.src_.drop lx.current_ = body_text body ++ '\n' :: tail) :
    StringHandler.scan lx = .error "Unterminated string literal (newline inside)" := by
  obtain ⟨fuel1, lx1, _, h2, h3, _, h5⟩ := string_loop_body body hwf
    (lx.src_.length - lx.current_) lx ['"'] [] ('\n' :: tail) hsrc (Nat.le_refl _)
  obtain ⟨ha1, _, _⟩ := advance_of_cons lx1 '\n' _ h2
  have hlt := (drop_cons_facts _ _ _ _ h2).1
  have hend : lx1.is_at_end = false := (Lexer.is_at_end_false_iff lx1).2 hlt
  unfold StringHandler.scan
  rw [h5]
  cases fuel1 with
  | zero => omega
  | succ n =>
    unfold StringHandler.loop
    rw [if_neg (by rw [hend]; decide)]
    dsimp only
    rw [ha1, if_neg (by decide), if_neg (by decide), if_pos rfl]

theorem string_step (stold_ok : List Char → Bool) (keep_comments : Bool) (rest : List Char) :
    tokenize_step stold_ok (Lexer.init ('"' :: rest) keep_comments) =
      StringHandler.scan ⟨'"' :: rest, keep_comments, 0, 1, 1, 2, 1⟩ := by
  have hadv : (Lexer.init ('"' :: rest) keep_comments).mark.advance =
      ('"', ⟨'"' :: rest, keep_comments, 0, 1, 1, 2, 1⟩) :=
    Lexer.advance_of_drop (Lexer.init ('"' :: rest) keep_comments).mark '"' rest rfl
      (by decide)
  unfold tokenize_step
  rw [hadv]
  have htab : register_defaults '"' = some HandlerKind.String := by decide
  rw [htab]
  rfl

theorem colOK_after_quote (q : Char) (hq : q ≠ '\n') (rest : List Char)
    (keep_comments : Bool) : ColOK ⟨q :: rest, keep_comments, 0, 1, 1, 2, 1⟩ := by
  unfold ColOK column_of
  simp [hq]

/-- C12. A source that opens a string literal with a double quote and reaches, after a
body of ordinary characters and two-character backslash escapes, a newline that is not
the second character of an escape, makes `tokenize` fail with the unterminated-string
error. -/
theorem tokenize_string_newline (stold_ok : List Char → Bool) (keep_comments : Bool)
    (body : List StrItem) (tail : List Char) (hwf : ∀ item ∈ body, item.wellformed) :
    tokenize stold_ok ('"' :: (body_text body ++ '\n' :: tail)) keep_comments =
      some (.error "Unterminated string literal (newline inside)") := by
  have hend : (Lexer.init ('"' :: (body_text body ++ '\n' :: tail)) keep_comments).is_at_end
      = false := by
    simp [Lexer.init, Lexer.is_at_end]
  unfold tokenize
  rw [List.length_cons]
  apply tokenize_loop_error stold_ok _ _ _ _ hend
  rw [string_step]
  exact string_scan_newline _ body tail hwf rfl

theorem tokenize_string_newline_witness :
    tokenize stold_any "\"a\\\"b\nc\"".toList false =
      some (.error "Unterminated string literal (newline inside)") :=
  tokenize_string_newline stold_any false
    [StrItem.plain 'a', StrItem.escape '"', StrItem.plain 'b'] "c\"".toList (by decide)

/-! ## Numbers with a fraction or an exponent -/

theorem number_scan_eq (stold_ok : List Char → Bool) (lx : Lexer)
    (h : lx.current_char ≠ '.') :
    NumberHandler.scan stold_ok lx =
      NumberHandler.after_digits stold_ok (lx.retreat_one.consume_while [] Char.isDigit) := by
  unfold NumberHandler.scan
  dsimp only
  rw [if_neg h]
  rfl

theorem getD_drop (l : List Char) (k n : Nat) : (l.drop k).getD n NUL = l.getD (k + n) NUL := by
  rw [List.getD_eq_getElem?_getD, List.getD_eq_getElem?_getD, List.getElem?_drop]

theorem peek_eq_getD (lx : Lexer) (n : Nat) :
    lx.peek n = (lx.src_.drop lx.current_).getD n NUL := by
  unfold Lexer.peek
  dsimp only
  rw [getD_drop]
  split
  · rename_i h
    rw [List.getD_eq_default _ _ h]
  · rfl

theorem peek_of_drop (lx : Lexer) (rest : List Char) (n : Nat)
    (h : lx.src_.drop lx.current_ = rest) : lx.peek n = rest.getD n NUL := by
  rw [peek_eq_getD, h]

namespace Lexer

theorem skip_drop (lx : Lexer) (n : Nat) (pre rest : List Char)
    (h : lx.src_.drop lx.current_ = pre ++ rest) (hn : pre.length = n) :
    (lx.skip n).src_.drop (lx.skip n).current_ = rest := by
  show lx.src_.drop (lx.current_ + n) = rest
  rw [← List.drop_drop, h, ← hn, List.drop_left]

theorem skip_skip (lx : Lexer) (a b : Nat) : (lx.skip a).skip b = lx.skip (a + b) := by
  simp [skip, Nat.add_assoc]

theorem advance_skip (lx : Lexer) (x : Char) (t : List Char)
    (h : lx.src_.drop lx.current_ = x :: t) (hx : x ≠ '\n') : lx.advance = (x, lx.skip 1) :=
  advance_of_drop lx x t h hx

theorem consume_while_skip (pred : Char → Bool) (run rest : List Char) (lx : Lexer)
    (out : List Char) (hsrc : lx.src_.drop lx.current_ = run ++ rest)
    (hrun : ∀ x ∈ run, pred x = true ∧ x ≠ '\n')
    (hrest : rest = [] ∨ ∃ y ys, rest = y :: ys ∧ pred y = false) :
    lx.consume_while out pred = (lx.skip run.length, out ++ run) :=
  consume_while_run pred run rest lx out hsrc hrun hrest

end Lexer

theorem digits_run (ds : List Char) (hd : ∀ x ∈ ds, x.isDigit = true) :
    ∀ x ∈ ds, Char.isDigit x = true ∧ x ≠ '\n' :=
  fun x hx => ⟨hd x hx, ne_of_class (hd x hx) (by decide)⟩

theorem exponent_digits_fail (lx : Lexer) (raw rest : List Char)
    (hsrc : lx.src_.drop lx.current_ = rest)
    (hrest : rest = [] ∨ ∃ y ys, rest = y :: ys ∧ y.isDigit = false) :
    NumberHandler.exponent_digits lx raw = .error "Malformed exponent" := by
  have hp : (lx.peek 0).isDigit = false := by
    rw [peek_zero_cases lx rest hsrc]
    rcases hrest with h | ⟨y, ys, h, hy⟩
    · rw [h]
      decide
    · rw [h]
      exact hy
  unfold NumberHandler.exponent_digits NumberHandler.is_digit_char
  rw [hp, if_pos (by decide)]

theorem exponent_eq (lx : Lexer) (raw : List Char) (m : Char) (sign tail : List Char)
    (hsrc : lx.src_.drop lx.current_ = m :: (sign ++ tail)) (hm : m ≠ '\n')
    (hsign : (sign = [] ∧ (tail = [] ∨ ∃ y ys, tail = y :: ys ∧ y ≠ '+' ∧ y ≠ '-')) ∨
      sign = ['+'] ∨ sign = ['-']) :
    NumberHandler.exponent lx raw =
      NumberHandler.exponent_digits (lx.skip (1 + sign.length)) (raw ++ m :: sign) := by
  have hd1 : (lx.skip 1).src_.drop (lx.skip 1).current_ = sign ++ tail :=
    Lexer.skip_drop lx 1 [m] (sign ++ tail) hsrc rfl
  unfold NumberHandler.exponent
  dsimp only
  rw [Lexer.advance_skip lx m _ hsrc hm]
  dsimp only
  rcases hsign with ⟨hs, ht⟩ | hs | hs
  · subst hs
    have hp : (lx.skip 1).peek 0 ≠ '+' ∧ (lx.skip 1).peek 0 ≠ '-' := by
      rw [peek_zero_cases _ _ hd1]
      rcases ht with h | ⟨y, ys, h, h1, h2⟩
      · rw [h]
        exact ⟨by decide, by decide⟩
      · rw [h]
        exact ⟨h1, h2⟩
    rw [if_neg (by
      intro hc
      rcases hc with hc | hc
      · exact hp.1 hc
      · exact hp.2 hc)]
    rfl
  · subst hs
    have hd2 : (lx.skip 1).src_.drop (lx.skip 1).current_ = '+' :: tail := hd1
    rw [Lexer.peek_zero_of_drop _ _ _ hd2, if_pos (Or.inl rfl),
      Lexer.advance_skip _ '+' _ hd2 (by decide), Lexer.skip_skip]
    simp
  · subst hs
    have hd2 : (lx.skip 1).src_.drop (lx.skip 1).current_ = '-' :: tail := hd1
    rw [Lexer.peek_zero_of_drop _ _ _ hd2, if_pos (Or.inr rfl),
      Lexer.advance_skip _ '-' _ hd2 (by decide), Lexer.skip_skip]
    simp

theorem exponent_float_fail (stold_ok : List Char → Bool) (lx : Lexer) (raw : List Char)
    (m : Char) (sign rest : List Char)
    (hsrc : lx.src_.drop lx.current_ = m :: (sign ++ rest)) (hm : m = 'e' ∨ m = 'E')
    (hsign : sign = [] ∨ sign = ['+'] ∨ sign = ['-'])
    (hrest : rest = [] ∨ ∃ y ys, rest = y :: ys ∧ y.isDigit = false ∧
      (sign = [] → y ≠ '+' ∧ y ≠ '-')) :
    NumberHandler.exponent_float stold_ok lx raw = .error "Malformed exponent" := by
  have hmn : m ≠ '\n' := by
    rcases hm with h | h <;> rw [h] <;> decide
  have hsign1 : (sign = [] ∧ (rest = [] ∨ ∃ y ys, rest = y :: ys ∧ y ≠ '+' ∧ y ≠ '-')) ∨
      sign = ['+'] ∨ sign = ['-'] := by
    rcases hsign with h | h | h
    · left
      refine ⟨h, ?_⟩
      rcases hrest with h1 | ⟨y, ys, h1, _, h3⟩
      · exact Or.inl h1
      · exact Or.inr ⟨y, ys, h1, h3 h⟩
    · exact Or.inr (Or.inl h)
    · exact Or.inr (Or.inr h)
  have hrest1 : rest = [] ∨ ∃ y ys, rest = y :: ys ∧ y.isDigit = false := by
    rcases hrest with h1 | ⟨y, ys, h1, h2, _⟩
    · exact Or.inl h1
    · exact Or.inr ⟨y, ys, h1, h2⟩
  have hd : (lx.skip (1 + sign.length)).src_.drop (lx.skip (1 + sign.length)).current_
      = rest :=
    Lexer.skip_drop lx (1 + sign.length) (m :: sign) rest (by simpa using hsrc)
      (by simp; omega)
  unfold NumberHandler.exponent_float
  rw [exponent_eq lx raw m sign rest hsrc hmn hsign1, exponent_digits_fail _ _ rest hd hrest1]

theorem after_digits_fraction (stold_ok : List Char → Bool) (lx : Lexer)
    (raw fs tail : List Char) (hsrc : lx.src_.drop lx.current_ = '.' :: (fs ++ tail))
    (hne : fs ≠ []) (hfs : ∀ x ∈ fs, x.isDigit = true)
    (htail : tail = [] ∨ ∃ y ys, tail = y :: ys ∧ y.isDigit = false) :
    NumberHandler.after_digits stold_ok (lx, raw) =
      NumberHandler.fraction_tail stold_ok (lx.skip (1 + fs.length)) (raw ++ '.' :: fs) := by
  cases fs with
  | nil => exact absurd rfl hne
  | cons f fs1 =>
    have hp0 : lx.peek 0 = '.' := Lexer.peek_zero_of_drop lx _ _ hsrc
    have hp1 : lx.peek 1 = f := by
      rw [peek_of_drop lx _ 1 hsrc]
      rfl
    have hd1 : (lx.skip 1).src_.drop (lx.skip 1).current_ = (f :: fs1) ++ tail :=
      Lexer.skip_drop lx 1 ['.'] _ hsrc rfl
    unfold NumberHandler.after_digits
    dsimp only
    rw [hp0, hp1, if_pos ⟨rfl, hfs f (List.mem_cons_self _ _)⟩,
      Lexer.advance_skip lx '.' _ hsrc (by decide)]
    dsimp only
    rw [Lexer.consume_while_skip Char.isDigit (f :: fs1) tail (lx.skip 1) _ hd1
      (digits_run _ hfs) htail, Lexer.skip_skip]
    simp

theorem after_digits_exponent (stold_ok : List Char → Bool) (lx : Lexer)
    (raw : List Char) (m : Char) (t : List Char)
    (hsrc : lx.src_.drop lx.current_ = m :: t) (hm : m = 'e' ∨ m = 'E') :
    NumberHandler.after_digits stold_ok (lx, raw) =
      NumberHandler.exponent_float stold_ok lx raw := by
  have hp0 : lx.peek 0 = m := Lexer.peek_zero_of_drop lx _ _ hsrc
  have hmd : m ≠ '.' := by
    rcases hm with h | h <;> rw [h] <;> decide
  unfold NumberHandler.after_digits
  dsimp only
  rw [hp0, if_neg (fun hc => hmd hc.1), if_pos hm]

theorem fraction_tail_exponent (stold_ok : List Char → Bool) (lx : Lexer)
    (raw : List Char) (m : Char) (t : List Char)
    (hsrc : lx.src_.drop lx.current_ = m :: t) (hm : m = 'e' ∨ m = 'E') :
    NumberHandler.fraction_tail stold_ok lx raw =
      NumberHandler.exponent_float stold_ok lx raw := by
  unfold NumberHandler.fraction_tail
  rw [Lexer.peek_zero_of_drop lx _ _ hsrc, if_pos hm]

/-- The first iteration of `tokenize` on a source that begins with a digit run `ds`
followed by `after`: the number strategy gives the first digit back, consumes the run,
and goes on with `after_digits`. -/
theorem number_start (stold_ok : List Char → Bool) (keep_comments : Bool)
    (ds after : List Char) (hne : ds ≠ []) (hds : ∀ x ∈ ds, x.isDigit = true)
    (hafter : after = [] ∨ ∃ y ys, after = y :: ys ∧ y.isDigit = false) :
    (Lexer.init (ds ++ after) keep_comments).is_at_end = false ∧
    tokenize_step stold_ok (Lexer.init (ds ++ after) keep_comments) =
      NumberHandler.after_digits stold_ok
        ((Lexer.init (ds ++ after) keep_comments).skip ds.length, ds) := by
  cases ds with
  | nil => exact absurd rfl hne
  | cons c cs =>
    have hc := hds c (List.mem_cons_self _ _)
    have hadv : (Lexer.init (c :: cs ++ after) keep_comments).mark.advance =
        (c, ⟨c :: cs ++ after, keep_comments, 0, 1, 1, 2, 1⟩) :=
      Lexer.advance_of_drop (Lexer.init (c :: cs ++ after) keep_comments).mark c (cs ++ after)
        rfl (ne_of_class hc (by decide))
    have hcur : (⟨c :: cs ++ after, keep_comments, 0, 1, 1, 2, 1⟩ : Lexer).current_char = c :=
      rfl
    have hret : (⟨c :: cs ++ after, keep_comments, 0, 1, 1, 2, 1⟩ : Lexer).retreat_one =
        Lexer.init (c :: cs ++ after) keep_comments := rfl
    refine ⟨by simp [Lexer.init, Lexer.is_at_end], ?_⟩
    unfold tokenize_step
    rw [hadv, register_defaults_digit c hc]
    show NumberHandler.scan stold_ok _ = _
    rw [number_scan_eq stold_ok _ (by rw [hcur]; exact ne_of_class hc (by decide)), hret,
      Lexer.consume_while_skip Char.isDigit (c :: cs) after
        (Lexer.init (c :: cs ++ after) keep_comments) [] rfl (digits_run _ hds) hafter]
    rfl

theorem tokenize_first_error (stold_ok : List Char → Bool) (keep_comments : Bool)
    (src : List Char) (e : String)
    (hend : (Lexer.init src keep_comments).is_at_end = false)
    (hstep : tokenize_step stold_ok (Lexer.init src keep_comments) = .error e) :
    tokenize stold_ok src keep_comments = some (.error e) := by
  unfold tokenize
  cases hlen : src.length with
  | zero =>
    have := (Lexer.is_at_end_false_iff _).1 hend
    simp only [Lexer.init] at this
    omega
  | succ n => exact tokenize_loop_error stold_ok _ _ _ _ hend hstep

theorem not_digit_of_marker (m : Char) (hm : m = 'e' ∨ m = 'E') : m.isDigit = false := by
  rcases hm with h | h <;> rw [h] <;> decide

/-- C14. A source that starts with a run of ASCII digits, optionally followed by a dot
and one or more digits, then `e` or `E`, then an optional sign (taken whenever one is
there), and then ends or goes on with a character that is not a digit, makes `tokenize`
fail with the malformed-exponent error. -/
theorem tokenize_malformed_exponent (stold_ok : List Char → Bool) (keep_comments : Bool)
    (ds frac : List Char) (m : Char) (sign rest : List Char)
    (hne : ds ≠ []) (hds : ∀ x ∈ ds, x.isDigit = true)
    (hfrac : frac = [] ∨ ∃ fs, fs ≠ [] ∧ (∀ x ∈ fs, x.isDigit = true) ∧ frac = '.' :: fs)
    (hm : m = 'e' ∨ m = 'E')
    (hsign : sign = [] ∨ sign = ['+'] ∨ sign = ['-'])
    (hrest : rest = [] ∨ ∃ y ys, rest = y :: ys ∧ y.isDigit = false ∧
      (sign = [] → y ≠ '+' ∧ y ≠ '-')) :
    tokenize stold_ok (ds ++ (frac ++ m :: (sign ++ rest))) keep_comments =
      some (.error "Malformed exponent") := by
  have hmd := not_digit_of_marker m hm
  rcases hfrac with hf | ⟨fs, hfne, hfs, hf⟩
  · subst hf
    obtain ⟨hend, hstep⟩ := number_start stold_ok keep_comments ds
      ([] ++ m :: (sign ++ rest)) hne hds (Or.inr ⟨m, sign ++ rest, rfl, hmd⟩)
    have hd := Lexer.skip_drop (Lexer.init (ds ++ ([] ++ m :: (sign ++ rest))) keep_comments)
      ds.length ds ([] ++ m :: (sign ++ rest)) rfl rfl
    apply tokenize_first_error stold_ok keep_comments _ _ hend
    rw [hstep, after_digits_exponent stold_ok _ _ m _ hd hm]
    exact exponent_float_fail stold_ok _ _ m sign rest hd hm hsign hrest
  · subst hf
    obtain ⟨hend, hstep⟩ := number_start stold_ok keep_comments ds
      ('.' :: fs ++ m :: (sign ++ rest)) hne hds (Or.inr ⟨'.', _, rfl, by decide⟩)
    have hd := Lexer.skip_drop
      (Lexer.init (ds ++ ('.' :: fs ++ m :: (sign ++ rest))) keep_comments)
      ds.length ds ('.' :: fs ++ m :: (sign ++ rest)) rfl rfl
    have hd1 : ((Lexer.init (ds ++ ('.' :: fs ++ m :: (sign ++ rest)))
        keep_comments).skip ds.length).src_.drop
        ((Lexer.init (ds ++ ('.' :: fs ++ m :: (sign ++ rest)))
          keep_comments).skip ds.length).current_ = '.' :: (fs ++ m :: (sign ++ rest)) := hd
    have hd2 := Lexer.skip_drop _ (1 + fs.length) ('.' :: fs) (m :: (sign ++ rest)) hd
      (by simp; omega)
    apply tokenize_first_error stold_ok keep_comments _ _ hend
    rw [hstep, after_digits_fraction stold_ok _ _ fs _ hd1 hfne hfs
      (Or.inr ⟨m, _, rfl, hmd⟩), fraction_tail_exponent stold_ok _ _ m _ hd2 hm]
    exact exponent_float_fail stold_ok _ _ m sign rest hd2 hm hsign hrest

theorem tokenize_malformed_exponent_witness :
    tokenize stold_any "1e".toList false = some (.error "Malformed exponent") ∧
    tokenize stold_any "1.5e".toList false = some (.error "Malformed exponent") ∧
    tokenize stold_any "1e+".toList false = some (.error "Malformed exponent") ∧
    tokenize stold_any "1else".toList false = some (.error "Malformed exponent") :=
  ⟨tokenize_malformed_exponent stold_any false ['1'] [] 'e' [] [] (by decide) (by decide)
      (Or.inl rfl) (Or.inl rfl) (Or.inl rfl) (Or.inl rfl),
    tokenize_malformed_exponent stold_any false ['1'] ['.', '5'] 'e' [] [] (by decide)
      (by decide) (Or.inr ⟨['5'], by decide, by decide, rfl⟩) (Or.inl rfl) (Or.inl rfl)
      (Or.inl rfl),
    tokenize_malformed_exponent stold_any false ['1'] [] 'e' ['+'] [] (by decide) (by decide)
      (Or.inl rfl) (Or.inl rfl) (Or.inr (Or.inl rfl)) (Or.inl rfl),
    tokenize_malformed_exponent stold_any false ['1'] [] 'e' [] "lse".toList (by decide)
      (by decide) (Or.inl rfl) (Or.inl rfl) (Or.inl rfl)
      (Or.inr ⟨'l', "se".toList, rfl, by decide, fun _ => ⟨by decide, by decide⟩⟩)⟩

/-- C26. Every cursor reached from the initial one by calls of `advance` stays within
the buffer, has as line one more than the newlines among the consumed characters, and as
column one more than the characters consumed since the last consumed newline; at the end
of the buffer `advance` returns the NUL sentinel and leaves the cursor as it is. -/
theorem advance_invariant (src : List Char) (keep_comments : Bool) (lx : Lexer)
    (h : Steps (Lexer.init src keep_comments) lx) :
    lx.src_ = src ∧ lx.current_ ≤ src.length ∧
    lx.line_ = 1 + (src.take lx.current_).count '\n' ∧
    lx.col_ = 1 + ((src.take lx.current_).reverse.takeWhile (fun c => decide (c ≠ '\n'))).length ∧
    (lx.is_at_end = true → lx.advance = (NUL, lx)) := by
  have hsrc : lx.src_ = src := h.src
  have hle := h.le_length (Nat.zero_le _)
  have hL := h.preserve LineOK advance_lineOK (by simp [LineOK, Lexer.init, line_of])
  have hC := h.preserve ColOK advance_colOK (by simp [ColOK, Lexer.init, column_of])
  unfold LineOK line_of at hL
  unfold ColOK column_of at hC
  rw [hsrc] at hle hL hC
  exact ⟨hsrc, hle, hL, hC, Lexer.advance_at_end lx⟩

theorem advance_invariant_witness :
    (Lexer.init "a\nb".toList false).advance.2.advance.2.line_ =
      1 + ("a\nb".toList.take
        (Lexer.init "a\nb".toList false).advance.2.advance.2.current_).count '\n' :=
  (advance_invariant "a\nb".toList false (Lexer.init "a\nb".toList false).advance.2.advance.2
    (Steps.adv (Steps.adv (Steps.refl _)))).2.2.1

/-- C25 fails on `ab`: the cursor reached by one `advance` is at offset 1, line 1,
column 2; a further `advance` followed by `retreat_one` gives back offset 1 and line 1
but column 1, because `retreat_one` on the first line sets the column to the offset. -/
theorem advance_retreat_column (keep_comments : Bool) :
    Steps (Lexer.init "ab".toList keep_comments) ⟨"ab".toList, keep_comments, 0, 1, 1, 2, 1⟩ ∧
    (⟨"ab".toList, keep_comments, 0, 1, 1, 2, 1⟩ : Lexer).is_at_end = false ∧
    (⟨"ab".toList, keep_comments, 0, 1, 1, 2, 1⟩ : Lexer).advance.2.retreat_one =
      ⟨"ab".toList, keep_comments, 0, 1, 1, 1, 1⟩ := by
  refine ⟨Steps.adv (Steps.refl _), rfl, rfl⟩

/-- C23 fails on the source made of a double quote and a backslash: at the end of the
buffer the string strategy appends the NUL sentinel returned by `advance` to the raw
text, and, not failing on the missing closing quote, returns a STRING literal whose
lexeme has three characters, while `raw_lexeme()` is the two-character source. -/
theorem string_lexeme_sentinel (stold_ok : List Char → Bool) (keep_comments : Bool) :
    tokenize stold_ok ['"', '\\'] keep_comments =
      some (.ok [TokenFactory.make_string_literal ['"', '\\', NUL] [NUL] 1 1,
        TokenFactory.make_eof 1 3]) ∧
    tokenize_step stold_ok (Lexer.init ['"', '\\'] keep_comments) =
      .ok (⟨['"', '\\'], keep_comments, 0, 2, 1, 3, 1⟩,
        some (TokenFactory.make_string_literal ['"', '\\', NUL] [NUL] 1 1)) ∧
    (⟨['"', '\\'], keep_comments, 0, 2, 1, 3, 1⟩ : Lexer).raw_lexeme = ['"', '\\'] := by
  refine ⟨?_, ?_, rfl⟩ <;> cases keep_comments <;> rfl

/-! ## Block comments -/

theorem close_infix_cons (x : Char) (l : List Char) :
    ['*', '/'] <:+: x :: l ↔ (x = '*' ∧ l.headD NUL = '/') ∨ ['*', '/'] <:+: l := by
  rw [List.infix_cons_iff]
  constructor
  · rintro (h | h)
    · left
      obtain ⟨r, hr⟩ := h
      simp only [List.cons_append, List.nil_append, List.cons.injEq] at hr
      obtain ⟨h1, h2⟩ := hr
      subst h2
      exact ⟨h1.symm, rfl⟩
    · exact Or.inr h
  · rintro (⟨h1, h2⟩ | h)
    · left
      cases l with
      | nil => exact absurd h2 (by decide)
      | cons y r =>
        simp only [List.headD_cons] at h2
        subst h1
        subst h2
        exact ⟨r, rfl⟩
    · exact Or.inr h

theorem block_loop_open (t : List Char) (fuel : Nat) (lx : Lexer) (txt : List Char)
    (h : lx.src_.drop lx.current_ = t) (hno : ¬ ['*', '/'] <:+: t) :
    (SlashHandler.block_loop fuel lx txt).2.2 = false := by
  induction t generalizing fuel lx txt with
  | nil =>
    have hend : lx.is_at_end = true :=
      (Lexer.is_at_end_true_iff lx).2 (List.drop_eq_nil_iff.1 h)
    cases fuel with
    | zero => rfl
    | succ n =>
      unfold SlashHandler.block_loop
      rw [if_pos hend]
  | cons x t ih =>
    cases fuel with
    | zero => rfl
    | succ n =>
      obtain ⟨h1, _, _⟩ := drop_cons_facts _ _ _ _ h
      have hend : lx.is_at_end = false := (Lexer.is_at_end_false_iff lx).2 h1
      obtain ⟨ha, hd, _⟩ := advance_of_cons lx x t h
      rw [close_infix_cons] at hno
      have hp : lx.advance.2.peek 0 = t.headD NUL := peek_zero_cases _ _ hd
      unfold SlashHandler.block_loop
      rw [if_neg (by rw [hend]; decide)]
      dsimp only
      rw [if_neg (by
        rw [ha, hp]
        exact fun hc => hno (Or.inl hc))]
      exact ih n _ _ hd (fun hc => hno (Or.inr hc))

theorem block_loop_closed (pre post : List Char) (fuel : Nat) (lx : Lexer) (txt : List Char)
    (h : lx.src_.drop lx.current_ = pre ++ '*' :: '/' :: post)
    (hno : ¬ ['*', '/'] <:+: pre ++ ['*'])
    (hf : lx.src_.length - lx.current_ ≤ fuel) :
    (SlashHandler.block_loop fuel lx txt).2 = (txt ++ pre, true) ∧
    (SlashHandler.block_loop fuel lx txt).1.current_ = lx.current_ + pre.length + 2 := by
  induction pre generalizing fuel lx txt with
  | nil =>
    rw [List.nil_append] at h
    obtain ⟨h1, _, _⟩ := drop_cons_facts _ _ _ _ h
    have hend : lx.is_at_end = false := (Lexer.is_at_end_false_iff lx).2 h1
    obtain ⟨ha, hd, hc⟩ := advance_of_cons lx _ _ h
    obtain ⟨_, _, hc2⟩ := advance_of_cons lx.advance.2 _ _ hd
    have hp : lx.advance.2.peek 0 = '/' := Lexer.peek_zero_of_drop _ _ _ hd
    cases fuel with
    | zero => omega
    | succ n =>
      unfold SlashHandler.block_loop
      rw [if_neg (by rw [hend]; decide)]
      dsimp only
      rw [if_pos ⟨ha, hp⟩]
      refine ⟨by simp, ?_⟩
      show lx.advance.2.advance.2.current_ = _
      rw [hc2, hc]
      simp
  | cons x pre ih =>
    rw [List.cons_append] at h
    obtain ⟨h1, _, _⟩ := drop_cons_facts _ _ _ _ h
    have hend : lx.is_at_end = false := (Lexer.is_at_end_false_iff lx).2 h1
    obtain ⟨ha, hd, hc⟩ := advance_of_cons lx _ _ h
    have hp : lx.advance.2.peek 0 = (pre ++ '*' :: '/' :: post).headD NUL :=
      peek_zero_cases _ _ hd
    rw [List.cons_append, close_infix_cons] at hno
    have hhead : (pre ++ '*' :: '/' :: post).headD NUL = (pre ++ ['*']).headD NUL := by
      cases pre <;> rfl
    cases fuel with
    | zero => omega
    | succ n =>
      have hlen : lx.advance.2.src_.length - lx.advance.2.current_ ≤ n := by
        rw [Lexer.advance_src, hc]
        omega
      obtain ⟨i1, i2⟩ := ih n lx.advance.2 (txt ++ [lx.advance.1]) hd
        (fun hc0 => hno (Or.inr hc0)) hlen
      unfold SlashHandler.block_loop
      rw [if_neg (by rw [hend]; decide)]
      dsimp only
      rw [if_neg (by
        rw [ha, hp, hhead]
        exact fun hc0 => hno (Or.inl hc0))]
      refine ⟨?_, ?_⟩
      · rw [i1, ha]
        simp
      · rw [i2, hc]
        simp only [List.length_cons]
        omega

theorem close_infix_split (t : List Char) (h : ['*', '/'] <:+: t) :
    ∃ pre post, t = pre ++ '*' :: '/' :: post ∧ ¬ ['*', '/'] <:+: pre ++ ['*'] := by
  induction t with
  | nil =>
    obtain ⟨a, b, hab⟩ := h
    simp at hab
  | cons x t ih =>
    by_cases hx : x = '*' ∧ t.headD NUL = '/'
    · cases t with
      | nil => exact absurd hx.2 (by decide)
      | cons y r =>
        simp only [List.headD_cons] at hx
        obtain ⟨hx1, hx2⟩ := hx
        subst hx1
        subst hx2
        exact ⟨[], r, rfl, by decide⟩
    · rw [close_infix_cons] at h
      rcases h with h | h
      · exact absurd h hx
      · obtain ⟨pre, post, hp, hno⟩ := ih h
        refine ⟨x :: pre, post, by rw [hp]; rfl, ?_⟩
        rw [List.cons_append, close_infix_cons]
        rintro (hc | hc)
        · apply hx
          refine ⟨hc.1, ?_⟩
          rw [hp]
          have : (pre ++ '*' :: '/' :: post).headD NUL = (pre ++ ['*']).headD NUL := by
            cases pre <;> rfl
          rw [this]
          exact hc.2
        · exact hno hc

/-- C27. `SlashHandler::scan` on a cursor whose next character is `*`, followed by the
text `t`: it fails with "Unterminated block comment" exactly when `t` has no occurrence
of `*/`; and when `t` is `pre`, `*/`, `post` with no occurrence of `*/` beginning inside
`pre`, it succeeds, the cursor is right after that `*/`, and the result is a COMMENT
token with text `pre` when `keep_comments` is set and no token otherwise. -/
theorem slash_block_comment (lx : Lexer) (t : List Char)
    (h : lx.src_.drop lx.current_ = '*' :: t) :
    (SlashHandler.scan lx = .error "Unterminated block comment" ↔ ¬ ['*', '/'] <:+: t) ∧
    (∀ pre post, t = pre ++ '*' :: '/' :: post → ¬ ['*', '/'] <:+: pre ++ ['*'] →
      ∃ lx1, Steps lx lx1 ∧ lx1.current_ = lx.current_ + 1 + pre.length + 2 ∧
        SlashHandler.scan lx = .ok (lx1,
          if lx.keep_comments_ then
            some (TokenFactory.make_comment pre lx1.line_ lx.token_col_)
          else none)) := by
  obtain ⟨ha, hd, hc⟩ := advance_of_cons lx _ _ h
  have hp : lx.peek 0 = '*' := Lexer.peek_zero_of_drop _ _ _ h
  have hsucc : ∀ pre post, t = pre ++ '*' :: '/' :: post → ¬ ['*', '/'] <:+: pre ++ ['*'] →
      ∃ lx1, Steps lx lx1 ∧ lx1.current_ = lx.current_ + 1 + pre.length + 2 ∧
        SlashHandler.scan lx = .ok (lx1,
          if lx.keep_comments_ then
            some (TokenFactory.make_comment pre lx1.line_ lx.token_col_)
          else none) := by
    intro pre post ht hno
    rw [ht] at hd
    obtain ⟨i1, i2⟩ := block_loop_closed pre post
      (lx.advance.2.src_.length - lx.advance.2.current_) lx.advance.2 [] hd hno (le_refl _)
    have hst : Steps lx (SlashHandler.block_loop
        (lx.advance.2.src_.length - lx.advance.2.current_) lx.advance.2 []).1 :=
      Steps.adv (block_loop_steps _ _ _)
    refine ⟨_, hst, by rw [i2, hc], ?_⟩
    have hk := hst.keep
    have htc := hst.token_col
    have i3 : (SlashHandler.block_loop
        (lx.advance.2.src_.length - lx.advance.2.current_) lx.advance.2 []).2.2 = true := by
      rw [i1]
    have i4 : (SlashHandler.block_loop
        (lx.advance.2.src_.length - lx.advance.2.current_) lx.advance.2 []).2.1 = pre := by
      rw [i1]
      rfl
    unfold SlashHandler.scan
    rw [if_neg (by rw [hp]; decide), if_pos hp]
    dsimp only
    rw [if_neg (by rw [i3]; decide), hk, htc, i4]
    cases lx.keep_comments_ <;> rfl
  refine ⟨⟨?_, ?_⟩, hsucc⟩
  · intro herr hin
    obtain ⟨pre, post, ht, hno⟩ := close_infix_split t hin
    obtain ⟨lx1, _, _, hok⟩ := hsucc pre post ht hno
    rw [hok] at herr
    cases herr
  · intro hno
    have i3 := block_loop_open t (lx.advance.2.src_.length - lx.advance.2.current_)
      lx.advance.2 [] hd hno
    unfold SlashHandler.scan
    rw [if_neg (by rw [hp]; decide), if_pos hp]
    dsimp only
    rw [if_pos (by rw [i3]; rfl)]

theorem slash_block_comment_witness :
    (SlashHandler.scan (Lexer.init "/*/".toList true).mark.advance.2 =
        .error "Unterminated block comment" ↔ ¬ ['*', '/'] <:+: ['/']) ∧
    (∀ pre post, ['/'] = pre ++ '*' :: '/' :: post → ¬ ['*', '/'] <:+: pre ++ ['*'] →
      ∃ lx1, Steps (Lexer.init "/*/".toList true).mark.advance.2 lx1 ∧
        lx1.current_ = (Lexer.init "/*/".toList true).mark.advance.2.current_ + 1 + pre.length + 2 ∧
        SlashHandler.scan (Lexer.init "/*/".toList true).mark.advance.2 = .ok (lx1,
          if (Lexer.init "/*/".toList true).mark.advance.2.keep_comments_ then
            some (TokenFactory.make_comment pre lx1.line_
              (Lexer.init "/*/".toList true).mark.advance.2.token_col_)
          else none)) :=
  slash_block_comment (Lexer.init "/*/".toList true).mark.advance.2 ['/'] rfl

/-! ## The tokens of a run -/

theorem register_defaults_not_slash (c : Char) :
    register_defaults c ≠ some HandlerKind.Slash := by
  rw [register_defaults_apply]
  by_cases h1 : c ∈ ",;:()\x7b\x7d[]".toList
  · rw [if_pos h1]
    intro h
    cases h
  rw [if_neg h1]
  by_cases h2 : c ∈ "+-*/%<>=!&|^~?:.".toList
  · rw [if_pos h2]
    intro h
    cases h
  rw [if_neg h2]
  by_cases h3 : c = '/'
  · exfalso
    apply h2
    rw [h3]
    decide
  rw [if_neg h3]
  by_cases k0 : c = '\''
  · rw [if_pos k0]
    intro h
    cases h
  rw [if_neg k0]
  by_cases k1 : c = '"'
  · rw [if_pos k1]
    intro h
    cases h
  rw [if_neg k1]
  by_cases k2 : c = '.'
  · rw [if_pos k2]
    intro h
    cases h
  rw [if_neg k2]
  by_cases k3 : c.isDigit = true
  · rw [if_pos k3]
    intro h
    cases h
  rw [if_neg k3]
  by_cases k4 : c = '_'
  · rw [if_pos k4]
    intro h
    cases h
  rw [if_neg k4]
  by_cases k5 : c.isUpper = true
  · rw [if_pos k5]
    intro h
    cases h
  rw [if_neg k5]
  by_cases k6 : c.isLower = true
  · rw [if_pos k6]
    intro h
    cases h
  rw [if_neg k6]
  by_cases k7 : c = '\n'
  · rw [if_pos k7]
    intro h
    cases h
  rw [if_neg k7]
  by_cases k8 : c = '\r'
  · rw [if_pos k8]
    intro h
    cases h
  rw [if_neg k8]
  by_cases k9 : c = '\t'
  · rw [if_pos k9]
    intro h
    cases h
  rw [if_neg k9]
  by_cases k10 : c = ' '
  · rw [if_pos k10]
    intro h
    cases h
  rw [if_neg k10]
  intro h
  cases h

theorem identifier_scan_producible (lx : Lexer) (r : Lexer × Option Token)
    (h : IdentifierHandler.scan lx = .ok r) : ∀ t, r.2 = some t → Producible t := by
  unfold IdentifierHandler.scan at h
  dsimp only at h
  intro t ht
  split at h
  · split at h
    · cases h
      cases ht
      exact Producible.bool_literal _ _ _ _
    · cases h
      cases ht
      exact Producible.keyword _ _ _
  · split at h
    · cases h
      cases ht
      exact Producible.operator _ _ _
    · cases h
      cases ht
      exact Producible.ident _ _ _

theorem operator_scan_producible (lx : Lexer) (r : Lexer × Option Token)
    (h : OperatorHandler.scan lx = .ok r) : ∀ t, r.2 = some t → Producible t := by
  unfold OperatorHandler.scan at h
  dsimp only at h
  intro t ht
  split at h
  · split at h
    · cases h
      cases ht
      exact Producible.operator _ _ _
    · cases h
      cases ht
      exact Producible.operator _ _ _
  · cases h
    cases ht
    exact Producible.operator _ _ _

theorem string_scan_producible (lx : Lexer) (r : Lexer × Option Token)
    (h : StringHandler.scan lx = .ok r) : ∀ t, r.2 = some t → Producible t := by
  unfold StringHandler.scan at h
  intro t ht
  split at h
  · cases h
  · cases h
    cases ht
    exact Producible.string_literal _ _ _ _

theorem char_close_producible (lx : Lexer) (raw : List Char) (val : Char)
    (r : Lexer × Option Token) (h : CharHandler.close lx raw val = .ok r) :
    ∀ t, r.2 = some t → Producible t := by
  unfold CharHandler.close at h
  intro t ht
  split at h
  · cases h
    cases ht
    exact Producible.char_literal _ _ _ _
  · cases h

theorem char_scan_producible (lx : Lexer) (r : Lexer × Option Token)
    (h : CharHandler.scan lx = .ok r) : ∀ t, r.2 = some t → Producible t := by
  unfold CharHandler.scan at h
  split at h
  · exact char_close_producible _ _ _ _ h
  · exact char_close_producible _ _ _ _ h

theorem float_literal_producible (stold_ok : List Char → Bool) (lx : Lexer) (raw : List Char)
    (r : Lexer × Option Token) (h : NumberHandler.float_literal stold_ok lx raw = .ok r) :
    ∀ t, r.2 = some t → Producible t := by
  unfold NumberHandler.float_literal at h
  intro t ht
  split at h
  · cases h
    cases ht
    exact Producible.float_literal _ _ _
  · cases h

theorem exponent_float_producible (stold_ok : List Char → Bool) (lx : Lexer)
    (raw : List Char) (r : Lexer × Option Token)
    (h : NumberHandler.exponent_float stold_ok lx raw = .ok r) :
    ∀ t, r.2 = some t → Producible t := by
  unfold NumberHandler.exponent_float at h
  split at h
  · cases h
  · exact float_literal_producible stold_ok _ _ r h

theorem fraction_tail_producible (stold_ok : List Char → Bool) (lx : Lexer)
    (raw : List Char) (r : Lexer × Option Token)
    (h : NumberHandler.fraction_tail stold_ok lx raw = .ok r) :
    ∀ t, r.2 = some t → Producible t := by
  unfold NumberHandler.fraction_tail at h
  split at h
  · exact exponent_float_producible stold_ok _ _ r h
  · exact float_literal_producible stold_ok _ _ r h

theorem stoll_range (raw : List Char) (vi : Int) (h : NumberHandler.stoll raw = some vi) :
    ∃ n : Nat, n ≤ 2 ^ 63 - 1 ∧ vi = Int.ofNat n := by
  unfold NumberHandler.stoll at h
  split at h
  · cases h
  · split at h
    · rename_i hle
      cases h
      exact ⟨_, hle, rfl⟩
    · cases h

theorem number_scan_producible (stold_ok : List Char → Bool) (lx : Lexer)
    (r : Lexer × Option Token) (h : NumberHandler.scan stold_ok lx = .ok r) :
    ∀ t, r.2 = some t → Producible t := by
  unfold NumberHandler.scan at h
  dsimp only at h
  split at h
  · exact fraction_tail_producible stold_ok _ _ r h
  · split at h
    · exact fraction_tail_producible stold_ok _ _ r h
    · split at h
      · exact exponent_float_producible stold_ok _ _ r h
      · split at h
        · cases h
        · rename_i vi hvi
          obtain ⟨n, hn, rfl⟩ := stoll_range _ _ hvi
          cases h
          intro t ht
          cases ht
          exact Producible.int_literal _ n hn _ _

theorem handler_scan_producible (stold_ok : List Char → Bool) (k : Option HandlerKind)
    (hk : k ≠ some HandlerKind.Slash) (lx : Lexer) (r : Lexer × Option Token)
    (h : Handler.scan stold_ok k lx = .ok r) : ∀ t, r.2 = some t → Producible t := by
  match k with
  | none => cases h
  | some HandlerKind.Whitespace =>
    unfold Handler.scan WhitespaceHandler.scan at h
    cases h
    intro t ht
    cases ht
  | some HandlerKind.Newline =>
    unfold Handler.scan NewlineHandler.scan at h
    cases h
    intro t ht
    cases ht
    exact Producible.newline _ _
  | some HandlerKind.Identifier => exact identifier_scan_producible lx r h
  | some HandlerKind.Number => exact number_scan_producible stold_ok lx r h
  | some HandlerKind.String => exact string_scan_producible lx r h
  | some HandlerKind.Char => exact char_scan_producible lx r h
  | some HandlerKind.Slash => exact absurd rfl hk
  | some HandlerKind.Operator => exact operator_scan_producible lx r h
  | some HandlerKind.Punct =>
    unfold Handler.scan PunctHandler.scan at h
    cases h
    intro t ht
    cases ht
    exact Producible.punct_token _ _ _

theorem tokenize_loop_producible (stold_ok : List Char → Bool) (fuel : Nat) (lx : Lexer)
    (tokens out : List Token) (h : tokenize_loop stold_ok fuel lx tokens = some (.ok out))
    (hp : ∀ t ∈ tokens, Producible t) :
    ∃ body l c, out = body ++ [TokenFactory.make_eof l c] ∧ ∀ t ∈ body, Producible t := by
  induction fuel generalizing lx tokens with
  | zero =>
    unfold tokenize_loop at h
    split at h
    · cases h
      exact ⟨tokens, _, _, rfl, hp⟩
    · cases h
  | succ n ih =>
    unfold tokenize_loop at h
    split at h
    · cases h
      exact ⟨tokens, _, _, rfl, hp⟩
    · split at h
      · cases h
      · rename_i r hr
        have hprod := handler_scan_producible stold_ok _ (register_defaults_not_slash _) _ r hr
        apply ih _ _ h
        intro t ht
        cases hr2 : r.2 with
        | none =>
          rw [hr2] at ht
          exact hp t ht
        | some u =>
          rw [hr2] at ht
          rcases List.mem_append.1 ht with h1 | h1
          · exact hp t h1
          · rw [List.mem_singleton.1 h1]
            exact hprod u hr2

/-- Every token of a successful run is a product of the token factory as described by
`Producible`, or the EOF token. -/
theorem tokenize_producible (stold_ok : List Char → Bool) (src : List Char)
    (keep_comments : Bool) (toks : List Token)
    (h : tokenize stold_ok src keep_comments = some (.ok toks)) (t : Token) (ht : t ∈ toks) :
    Producible t ∨ ∃ l c, t = TokenFactory.make_eof l c := by
  obtain ⟨body, l, c, rfl, hb⟩ := tokenize_loop_producible stold_ok _ _ _ _ h
    (by intro t ht; cases ht)
  rcases List.mem_append.1 ht with h1 | h1
  · exact Or.inl (hb t h1)
  · exact Or.inr ⟨l, c, List.mem_singleton.1 h1⟩

/-! ## Textual form of the tokens -/

/-- C24 fails for the EOF token: on the empty source `tokenize` returns the EOF token of
line 1, column 1, whose `to_string` is `Token(EOF, @1:1)`, without the lexeme part of the
documented form `Token(EOF, '', @1:1)`. -/
theorem eof_to_string_counterexample :
    tokenize stold_any [] false = some (.ok [TokenFactory.make_eof 1 1]) ∧
    Token.to_string double_text_any (TokenFactory.make_eof 1 1) = "Token(EOF, @1:1)".toList ∧
    token_text double_text_any (TokenFactory.make_eof 1 1) = "Token(EOF, '', @1:1)".toList ∧
    Token.to_string double_text_any (TokenFactory.make_eof 1 1) ≠
      token_text double_text_any (TokenFactory.make_eof 1 1) := by
  refine ⟨rfl, rfl, rfl, by decide⟩

/-- C24, amended. For every token of a successful run other than a FLOAT literal:
when it is not the EOF token, `to_string` is `Token(KIND, 'lexeme'V, @line:column)` with
`V` the text of the value after `, ` for a literal token and empty otherwise; when it is
the EOF token, `to_string` is `Token(EOF, @line:column)`. -/
theorem token_to_string (stold_ok : List Char → Bool) (double_text : List Char → List Char)
    (src : List Char) (keep_comments : Bool) (toks : List Token)
    (h : tokenize stold_ok src keep_comments = some (.ok toks)) (t : Token) (ht : t ∈ toks)
    (hf : t.type ≠ TokenType.FLOAT) :
    (t.type ≠ TokenType.EOF_T → Token.to_string double_text t = token_text double_text t) ∧
    (t.type = TokenType.EOF_T → Token.to_string double_text t =
      "Token(EOF, @".toList ++ decimal_text t.line ++ ":".toList ++ decimal_text t.column ++
        ")".toList) := by
  rcases tokenize_producible stold_ok src keep_comments toks h t ht with hp | ⟨l, c, rfl⟩
  · cases hp
    case float_literal => exact absurd rfl hf
    all_goals
      refine ⟨fun _ => ?_, fun hc => by cases hc⟩
      simp [Token.to_string, token_text, position_text, to_string_view, is_literal,
        TokenFactory.make_ident, TokenFactory.make_keyword, TokenFactory.make_operator,
        TokenFactory.make_punct, TokenFactory.make_newline, TokenFactory.make_int_literal,
        TokenFactory.make_string_literal, TokenFactory.make_char_literal,
        TokenFactory.make_bool_literal]
  · refine ⟨fun hc => absurd rfl hc, fun _ => ?_⟩
    simp [Token.to_string, position_text, TokenFactory.make_eof]

theorem token_to_string_witness :
    (TokenType.KEYWORD ≠ TokenType.EOF_T →
      Token.to_string double_text_any (TokenFactory.make_keyword "fun".toList 1 1) =
        token_text double_text_any (TokenFactory.make_keyword "fun".toList 1 1)) ∧
    (TokenType.KEYWORD = TokenType.EOF_T →
      Token.to_string double_text_any (TokenFactory.make_keyword "fun".toList 1 1) =
        "Token(EOF, @".toList ++ decimal_text 1 ++ ":".toList ++ decimal_text 1 ++
          ")".toList) :=
  token_to_string stold_any double_text_any "fun".toList false
    [TokenFactory.make_keyword "fun".toList 1 1, TokenFactory.make_eof 1 4] (by decide)
    (TokenFactory.make_keyword "fun".toList 1 1) (by decide) (by decide)

/-! ## Rendering a value and lexing it again -/

theorem digitChar_digit (k : Nat) (hk : k < 10) :
    (Nat.digitChar k).isDigit = true ∧ (Nat.digitChar k).toNat - '0'.toNat = k := by
  interval_cases k <;> exact ⟨rfl, rfl⟩

theorem decimal_value_snoc (pre : List Char) (d : Char) :
    NumberHandler.decimal_value (pre ++ [d]) =
      10 * NumberHandler.decimal_value pre + (d.toNat - '0'.toNat) := by
  unfold NumberHandler.decimal_value
  rw [List.foldl_append]
  rfl

theorem toDigitsCore_spec (fuel n : Nat) (ds : List Char) (hf : n < fuel) :
    ∃ pre, Nat.toDigitsCore 10 fuel n ds = pre ++ ds ∧ pre ≠ [] ∧
      (∀ x ∈ pre, x.isDigit = true) ∧ NumberHandler.decimal_value pre = n := by
  induction fuel generalizing n ds with
  | zero => omega
  | succ f ih =>
    have hd := digitChar_digit (n % 10) (Nat.mod_lt _ (by decide))
    unfold Nat.toDigitsCore
    dsimp only
    by_cases h0 : n / 10 = 0
    · rw [if_pos h0]
      refine ⟨[Nat.digitChar (n % 10)], rfl, by simp, ?_, ?_⟩
      · intro x hx
        rw [List.mem_singleton.1 hx]
        exact hd.1
      · have := decimal_value_snoc [] (Nat.digitChar (n % 10))
        rw [List.nil_append] at this
        rw [this, hd.2]
        show 10 * 0 + n % 10 = n
        omega
    · rw [if_neg h0]
      obtain ⟨pre, h1, _, h3, h4⟩ := ih (n / 10) (Nat.digitChar (n % 10) :: ds) (by omega)
      refine ⟨pre ++ [Nat.digitChar (n % 10)], by rw [h1]; simp, by simp, ?_, ?_⟩
      · intro x hx
        rcases List.mem_append.1 hx with hx | hx
        · exact h3 x hx
        · rw [List.mem_singleton.1 hx]
          exact hd.1
      · rw [decimal_value_snoc, h4, hd.2]
        omega

theorem decimal_text_spec (n : Nat) :
    decimal_text n ≠ [] ∧ (∀ x ∈ decimal_text n, x.isDigit = true) ∧
      NumberHandler.decimal_value (decimal_text n) = n := by
  obtain ⟨pre, h1, h2, h3, h4⟩ := toDigitsCore_spec (n + 1) n [] (Nat.lt_succ_self n)
  have : decimal_text n = pre := by
    unfold decimal_text Nat.toDigits
    rw [h1, List.append_nil]
  rw [this]
  exact ⟨h2, h3, h4⟩

/-- A run of digits whose value `std::stoll` accepts is lexed as one INT literal. -/
theorem tokenize_digit_run (stold_ok : List Char → Bool) (keep_comments : Bool) (c : Char)
    (cs : List Char) (hd : ∀ x ∈ c :: cs, x.isDigit = true)
    (hv : NumberHandler.decimal_value (c :: cs) ≤ 2 ^ 63 - 1) :
    tokenize stold_ok (c :: cs) keep_comments =
      some (.ok [TokenFactory.make_int_literal (c :: cs)
          (Int.ofNat (NumberHandler.decimal_value (c :: cs))) 1 1,
        TokenFactory.make_eof 1 ((c :: cs).length + 1)]) := by
  have hc := hd c (List.mem_cons_self _ _)
  have hnl : c ≠ '\n' := ne_of_class hc (by decide)
  have hdot : c ≠ '.' := ne_of_class hc (by decide)
  have hend0 : (Lexer.init (c :: cs) keep_comments).is_at_end = false := by
    simp [Lexer.init, Lexer.is_at_end]
  have hadv : (Lexer.init (c :: cs) keep_comments).mark.advance =
      (c, ⟨c :: cs, keep_comments, 0, 1, 1, 2, 1⟩) :=
    Lexer.advance_of_drop (Lexer.init (c :: cs) keep_comments).mark c cs rfl hnl
  have hret : (⟨c :: cs, keep_comments, 0, 1, 1, 2, 1⟩ : Lexer).retreat_one =
      ⟨c :: cs, keep_comments, 0, 0, 1, 1, 1⟩ := rfl
  have hrun := Lexer.consume_while_run Char.isDigit (c :: cs) []
    ⟨c :: cs, keep_comments, 0, 0, 1, 1, 1⟩ [] (by simp)
    (fun x hx => ⟨hd x hx, ne_of_class (hd x hx) (by decide)⟩) (Or.inl rfl)
  have hpeek (n : Nat) : (⟨c :: cs, keep_comments, 0, 0 + (c :: cs).length, 1,
      1 + (c :: cs).length, 1⟩ : Lexer).peek n = NUL :=
    Lexer.peek_at_end _ n (by simp [Lexer.is_at_end])
  have hst : NumberHandler.stoll (c :: cs) =
      some (Int.ofNat (NumberHandler.decimal_value (c :: cs))) := by
    unfold NumberHandler.stoll
    rw [if_neg (by simp), if_pos hv]
  have hscan : NumberHandler.scan stold_ok ⟨c :: cs, keep_comments, 0, 1, 1, 2, 1⟩ =
      match NumberHandler.stoll (c :: cs) with
      | none => .error ("Malformed integer literal: " ++ String.mk (c :: cs))
      | some vi => .ok (⟨c :: cs, keep_comments, 0, 0 + (c :: cs).length, 1,
          1 + (c :: cs).length, 1⟩,
          some (TokenFactory.make_int_literal (c :: cs) vi 1 1)) := by
    unfold NumberHandler.scan
    dsimp only
    have hfirst : (⟨c :: cs, keep_comments, 0, 1, 1, 2, 1⟩ : Lexer).current_char = c := rfl
    rw [hfirst, if_neg hdot, hret, hrun]
    dsimp only
    rw [hpeek 0, hpeek 1, if_neg (by decide), if_neg (by decide)]
    rfl
  rw [hst] at hscan
  unfold tokenize
  rw [List.length_cons, tokenize_loop_step stold_ok _ _ _ _ hend0 (by
    unfold tokenize_step
    rw [hadv, register_defaults_digit c hc]
    exact hscan)]
  rw [tokenize_loop_at_end _ _ _ _ (by simp [Lexer.is_at_end])]
  simp only [push_token, List.nil_append, List.singleton_append, List.length_cons]
  have h2 : 1 + (cs.length + 1) = cs.length + 1 + 1 := by omega
  rw [h2]

/-- C22. An INT literal of a successful run holds an `IntValue`; the text that
`IntValue::to_string` gives for it is lexed, whatever `keep_comments`, as one INT literal
with the same value followed by EOF. -/
theorem int_round_trip (stold_ok : List Char → Bool) (src : List Char) (keep_comments : Bool)
    (toks : List Token) (h : tokenize stold_ok src keep_comments = some (.ok toks))
    (t : Token) (ht : t ∈ toks) (hty : t.type = TokenType.INT) :
    ∃ v, t.value = some (Value.IntValue v) ∧
      ∀ keep2, tokenize stold_ok (IntValue.to_string v) keep2 =
        some (.ok [TokenFactory.make_int_literal (IntValue.to_string v) v 1 1,
          TokenFactory.make_eof 1 ((IntValue.to_string v).length + 1)]) := by
  rcases tokenize_producible stold_ok src keep_comments toks h t ht with hp | ⟨l, c, rfl⟩
  · cases hp
    case int_literal raw n hn line col =>
      refine ⟨Int.ofNat n, rfl, fun keep2 => ?_⟩
      obtain ⟨h1, h2, h3⟩ := decimal_text_spec n
      have htxt : IntValue.to_string (Int.ofNat n) = decimal_text n := rfl
      rw [htxt]
      cases hds : decimal_text n with
      | nil => exact absurd hds h1
      | cons d ds =>
        rw [hds] at h2 h3
        have := tokenize_digit_run stold_ok keep2 d ds h2 (by rw [h3]; exact hn)
        rw [h3] at this
        exact this
    all_goals exact absurd hty (by intro hc; cases hc)
  · exact absurd hty (by intro hc; cases hc)

theorem int_round_trip_witness :
    ∃ v, (TokenFactory.make_int_literal "042".toList 42 1 1).value = some (Value.IntValue v) ∧
      ∀ keep2, tokenize stold_any (IntValue.to_string v) keep2 =
        some (.ok [TokenFactory.make_int_literal (IntValue.to_string v) v 1 1,
          TokenFactory.make_eof 1 ((IntValue.to_string v).length + 1)]) :=
  int_round_trip stold_any "042".toList false
    [TokenFactory.make_int_literal "042".toList 42 1 1, TokenFactory.make_eof 1 4] (by decide)
    (TokenFactory.make_int_literal "042".toList 42 1 1) (by decide) rfl

theorem body_text_plain (v : List Char) : body_text (v.map StrItem.plain) = v := by
  induction v with
  | nil => rfl
  | cons x xs ih =>
    show [x] ++ body_text (xs.map StrItem.plain) = x :: xs
    rw [ih]
    rfl

theorem body_value_plain (v : List Char) : body_value (v.map StrItem.plain) = v := by
  unfold body_value
  induction v with
  | nil => rfl
  | cons x xs ih =>
    show x :: (xs.map StrItem.plain).map StrItem.value = x :: xs
    rw [ih]

/-- A text without double quote, backslash and newline, put between double quotes, is
lexed as one STRING literal whose value is the text. -/
theorem tokenize_quoted_text (stold_ok : List Char → Bool) (keep_comments : Bool)
    (v : List Char) (hv : ∀ x ∈ v, x ≠ '"' ∧ x ≠ '\\' ∧ x ≠ '\n') :
    tokenize stold_ok ('"' :: (v ++ ['"'])) keep_comments =
      some (.ok [TokenFactory.make_string_literal ('"' :: (v ++ ['"'])) v 1 1,
        TokenFactory.make_eof 1 (v.length + 3)]) := by
  have hwf : ∀ item ∈ v.map StrItem.plain, item.wellformed := by
    intro item hitem
    obtain ⟨x, hx, rfl⟩ := List.mem_map.1 hitem
    exact hv x hx
  obtain ⟨lx3, hscan, hsteps, hdrop, hcur⟩ := string_scan_closed
    ⟨'"' :: (v ++ ['"']), keep_comments, 0, 1, 1, 2, 1⟩ (v.map StrItem.plain) [] hwf
    (by rw [body_text_plain]; rfl)
  rw [body_text_plain, body_value_plain] at hscan
  rw [body_text_plain] at hcur
  have hL := hsteps.preserve LineOK advance_lineOK
    (lineOK_after_quote '"' (by decide) _ keep_comments)
  have hC := hsteps.preserve ColOK advance_colOK
    (colOK_after_quote '"' (by decide) _ keep_comments)
  have hsrc := hsteps.src
  have htc := hsteps.token_col
  have hlen : lx3.current_ = ('"' :: (v ++ ['"'])).length := by
    rw [hcur]
    simp
    omega
  have hnl : ∀ x ∈ '"' :: (v ++ ['"']), x ≠ '\n' := by
    intro x hx
    rcases List.mem_cons.1 hx with hx | hx
    · rw [hx]
      decide
    · rcases List.mem_append.1 hx with hx | hx
      · exact (hv x hx).2.2
      · rw [List.mem_singleton.1 hx]
        decide
  have hline : line_of ('"' :: (v ++ ['"'])) ('"' :: (v ++ ['"'])).length = 1 := by
    unfold line_of
    rw [List.take_length, List.count_eq_zero.2 (fun hm => hnl _ hm rfl)]
  have hcol : column_of ('"' :: (v ++ ['"'])) ('"' :: (v ++ ['"'])).length = v.length + 3 := by
    unfold column_of
    rw [List.take_length, List.takeWhile_eq_self_iff.2 (by
      intro x hx
      simpa using hnl x (List.mem_reverse.1 hx))]
    simp
    omega
  unfold LineOK at hL
  unfold ColOK at hC
  rw [hsrc, hlen, hline] at hL
  rw [hsrc, hlen, hcol] at hC
  have hend3 : lx3.is_at_end = true :=
    (Lexer.is_at_end_true_iff lx3).2 (List.drop_eq_nil_iff.1 hdrop)
  have hend : (Lexer.init ('"' :: (v ++ ['"'])) keep_comments).is_at_end = false := by
    simp [Lexer.init, Lexer.is_at_end]
  unfold tokenize
  rw [List.length_cons, tokenize_loop_step stold_ok _ _ _ _ hend (by
    rw [string_step]
    exact hscan)]
  rw [tokenize_loop_at_end _ _ _ _ hend3]
  simp only [push_token, List.nil_append, List.singleton_append]
  rw [hL, hC, htc]

/-- C21 fails on the source `"a\nb"` written with the escape: the STRING literal decodes
to `a`, newline, `b`; `StringValue::to_string` puts that text between double quotes
without escaping it, and lexing the result fails on the newline. -/
theorem string_round_trip_counterexample :
    tokenize stold_any "\"a\\nb\"".toList false =
      some (.ok [TokenFactory.make_string_literal "\"a\\nb\"".toList ['a', '\n', 'b'] 1 1,
        TokenFactory.make_eof 1 7]) ∧
    tokenize stold_any (StringValue.to_string ['a', '\n', 'b']) false =
      some (.error "Unterminated string literal (newline inside)") := by
  decide

/-- C21, amended. A STRING literal of a successful run holds a `StringValue`; when the
decoded text has no double quote, no backslash and no newline, the text that
`StringValue::to_string` gives for it is lexed, whatever `keep_comments`, as one STRING
literal with the same decoded text followed by EOF. -/
theorem string_round_trip (stold_ok : List Char → Bool) (src : List Char)
    (keep_comments : Bool) (toks : List Token)
    (h : tokenize stold_ok src keep_comments = some (.ok toks))
    (t : Token) (ht : t ∈ toks) (hty : t.type = TokenType.STRING) :
    ∃ v, t.value = some (Value.StringValue v) ∧
      ((∀ x ∈ v, x ≠ '"' ∧ x ≠ '\\' ∧ x ≠ '\n') →
        ∀ keep2, tokenize stold_ok (StringValue.to_string v) keep2 =
          some (.ok [TokenFactory.make_string_literal (StringValue.to_string v) v 1 1,
            TokenFactory.make_eof 1 (v.length + 3)])) := by
  rcases tokenize_producible stold_ok src keep_comments toks h t ht with hp | ⟨l, c, rfl⟩
  · cases hp
    case string_literal raw v line col =>
      exact ⟨v, rfl, fun hv keep2 => tokenize_quoted_text stold_ok keep2 v hv⟩
    all_goals exact absurd hty (by intro hc; cases hc)
  · exact absurd hty (by intro hc; cases hc)

theorem string_round_trip_witness :
    ∃ v, (TokenFactory.make_string_literal "\"a\\tb\"".toList ['a', '\t', 'b'] 1 1).value =
        some (Value.StringValue v) ∧
      ((∀ x ∈ v, x ≠ '"' ∧ x ≠ '\\' ∧ x ≠ '\n') →
        ∀ keep2, tokenize stold_any (StringValue.to_string v) keep2 =
          some (.ok [TokenFactory.make_string_literal (StringValue.to_string v) v 1 1,
            TokenFactory.make_eof 1 (v.length + 3)])) :=
  string_round_trip stold_any "\"a\\tb\"".toList false
    [TokenFactory.make_string_literal "\"a\\tb\"".toList ['a', '\t', 'b'] 1 1,
      TokenFactory.make_eof 1 7] (by decide)
    (TokenFactory.make_string_literal "\"a\\tb\"".toList ['a', '\t', 'b'] 1 1) (by decide) rfl

/-! ## The `keep_comments` flag -/

namespace Lexer

theorem advance_with_keep (lx : Lexer) (b : Bool) :
    (lx.with_keep b).advance = (lx.advance.1, lx.advance.2.with_keep b) := by
  unfold advance
  have h : (lx.with_keep b).is_at_end = lx.is_at_end := rfl
  rw [h]
  cases lx.is_at_end with
  | true => rfl
  | false =>
    simp only [Bool.false_eq_true, if_false]
    have hs : (lx.with_keep b).src_ = lx.src_ := rfl
    have hc : (lx.with_keep b).current_ = lx.current_ := rfl
    rw [hs, hc]
    by_cases hn : lx.src_.getD lx.current_ NUL = '\n'
    · rw [if_pos hn, if_pos hn]
      rfl
    · rw [if_neg hn, if_neg hn]
      rfl

theorem retreat_one_with_keep (lx : Lexer) (b : Bool) :
    (lx.with_keep b).retreat_one = lx.retreat_one.with_keep b := by
  unfold retreat_one
  have hc : (lx.with_keep b).current_ = lx.current_ := rfl
  rw [hc]
  by_cases h0 : lx.current_ = 0
  · rw [if_pos h0, if_pos h0]
  · rw [if_neg h0, if_neg h0]
    rfl

theorem consume_while_loop_with_keep (pred : Char → Bool) (fuel : Nat) (lx : Lexer)
    (out : List Char) (b : Bool) :
    consume_while_loop pred fuel (lx.with_keep b) out =
      ((consume_while_loop pred fuel lx out).1.with_keep b,
        (consume_while_loop pred fuel lx out).2) := by
  induction fuel generalizing lx out with
  | zero => rfl
  | succ n ih =>
    unfold consume_while_loop
    have h1 : (lx.with_keep b).is_at_end = lx.is_at_end := rfl
    have h2 : (lx.with_keep b).peek 0 = lx.peek 0 := rfl
    rw [h1, h2, advance_with_keep]
    dsimp only
    by_cases hc : (!lx.is_at_end && pred (lx.peek 0)) = true
    · rw [if_pos hc, if_pos hc]
      exact ih _ _
    · rw [if_neg hc, if_neg hc]

theorem consume_while_with_keep (lx : Lexer) (out : List Char) (pred : Char → Bool)
    (b : Bool) :
    (lx.with_keep b).consume_while out pred =
      ((lx.consume_while out pred).1.with_keep b, (lx.consume_while out pred).2) :=
  consume_while_loop_with_keep pred _ lx out b

end Lexer

theorem whitespace_loop_with_keep (fuel : Nat) (lx : Lexer) (b : Bool) :
    WhitespaceHandler.loop fuel (lx.with_keep b) =
      (WhitespaceHandler.loop fuel lx).with_keep b := by
  induction fuel generalizing lx with
  | zero => rfl
  | succ n ih =>
    unfold WhitespaceHandler.loop
    have h1 : (lx.with_keep b).is_at_end = lx.is_at_end := rfl
    have h2 : (lx.with_keep b).peek 0 = lx.peek 0 := rfl
    rw [h1, h2, Lexer.advance_with_keep]
    dsimp only
    by_cases hc : lx.is_at_end = true
    · rw [if_pos hc, if_pos hc]
    · rw [if_neg hc, if_neg hc]
      by_cases hw : lx.peek 0 = ' ' ∨ lx.peek 0 = '\t' ∨ lx.peek 0 = '\r'
      · rw [if_pos hw, if_pos hw]
        exact ih _
      · rw [if_neg hw, if_neg hw]

theorem string_loop_with_keep (fuel : Nat) (lx : Lexer) (raw out : List Char) (b : Bool) :
    StringHandler.loop fuel (lx.with_keep b) raw out =
      match StringHandler.loop fuel lx raw out with
      | .error e => .error e
      | .ok x => .ok (x.1.with_keep b, x.2) := by
  induction fuel generalizing lx raw out with
  | zero => rfl
  | succ n ih =>
    unfold StringHandler.loop
    have h1 : (lx.with_keep b).is_at_end = lx.is_at_end := rfl
    rw [h1, Lexer.advance_with_keep]
    dsimp only
    by_cases hc : lx.is_at_end = true
    · rw [if_pos hc, if_pos hc]
    · rw [if_neg hc, if_neg hc]
      by_cases hq : lx.advance.1 = '"'
      · rw [if_pos hq, if_pos hq]
      · rw [if_neg hq, if_neg hq]
        by_cases hb : lx.advance.1 = '\\'
        · rw [if_pos hb, if_pos hb, Lexer.advance_with_keep]
          exact ih _ _ _
        · rw [if_neg hb, if_neg hb]
          by_cases hn : lx.advance.1 = '\n'
          · rw [if_pos hn, if_pos hn]
          · rw [if_neg hn, if_neg hn]
            exact ih _ _ _

theorem ite_with_keep (c : Prop) [Decidable c] (x y : ScanResult) (b : Bool) :
    (if c then x else y).with_keep b = if c then x.with_keep b else y.with_keep b := by
  split <;> rfl

theorem identifier_scan_with_keep (lx : Lexer) (b : Bool) :
    IdentifierHandler.scan (lx.with_keep b) = (IdentifierHandler.scan lx).with_keep b := by
  unfold IdentifierHandler.scan
  have h1 : (lx.with_keep b).current_char = lx.current_char := rfl
  rw [h1, Lexer.consume_while_with_keep]
  dsimp only
  rw [ite_with_keep, ite_with_keep, ite_with_keep]
  rfl

theorem operator_scan_with_keep (lx : Lexer) (b : Bool) :
    OperatorHandler.scan (lx.with_keep b) = (OperatorHandler.scan lx).with_keep b := by
  unfold OperatorHandler.scan
  have h1 : (lx.with_keep b).current_char = lx.current_char := rfl
  have h2 : (lx.with_keep b).peek 0 = lx.peek 0 := rfl
  rw [h1, h2, Lexer.advance_with_keep]
  dsimp only
  rw [ite_with_keep, ite_with_keep]
  rfl

theorem string_scan_with_keep (lx : Lexer) (b : Bool) :
    StringHandler.scan (lx.with_keep b) = (StringHandler.scan lx).with_keep b := by
  unfold StringHandler.scan
  have h1 : (lx.with_keep b).src_ = lx.src_ := rfl
  have h2 : (lx.with_keep b).current_ = lx.current_ := rfl
  rw [h1, h2, string_loop_with_keep]
  cases StringHandler.loop (lx.src_.length - lx.current_) lx ['"'] [] with
  | error e => rfl
  | ok x => rfl

theorem char_close_with_keep (lx : Lexer) (raw : List Char) (val : Char) (b : Bool) :
    CharHandler.close (lx.with_keep b) raw val = (CharHandler.close lx raw val).with_keep b := by
  unfold CharHandler.close
  have h2 : (lx.with_keep b).peek 0 = lx.peek 0 := rfl
  rw [h2, Lexer.advance_with_keep]
  dsimp only
  rw [ite_with_keep]
  rfl

theorem char_scan_with_keep (lx : Lexer) (b : Bool) :
    CharHandler.scan (lx.with_keep b) = (CharHandler.scan lx).with_keep b := by
  unfold CharHandler.scan
  have h2 : (lx.with_keep b).peek 0 = lx.peek 0 := rfl
  rw [h2, Lexer.advance_with_keep]
  dsimp only
  rw [Lexer.advance_with_keep]
  dsimp only
  rw [ite_with_keep, char_close_with_keep, char_close_with_keep]

theorem exponent_digits_with_keep (lx : Lexer) (raw : List Char) (b : Bool) :
    NumberHandler.exponent_digits (lx.with_keep b) raw =
      match NumberHandler.exponent_digits lx raw with
      | .error e => .error e
      | .ok x => .ok (x.1.with_keep b, x.2) := by
  unfold NumberHandler.exponent_digits
  have h2 : (lx.with_keep b).peek 0 = lx.peek 0 := rfl
  rw [h2, Lexer.consume_while_with_keep]
  by_cases hc : (!NumberHandler.is_digit_char (lx.peek 0)) = true
  · rw [if_pos hc, if_pos hc]
  · rw [if_neg hc, if_neg hc]

theorem exponent_with_keep (lx : Lexer) (raw : List Char) (b : Bool) :
    NumberHandler.exponent (lx.with_keep b) raw =
      match NumberHandler.exponent lx raw with
      | .error e => .error e
      | .ok x => .ok (x.1.with_keep b, x.2) := by
  unfold NumberHandler.exponent
  rw [Lexer.advance_with_keep]
  dsimp only
  have h2 : (lx.advance.2.with_keep b).peek 0 = lx.advance.2.peek 0 := rfl
  rw [h2, Lexer.advance_with_keep]
  dsimp only
  by_cases hc : lx.advance.2.peek 0 = '+' ∨ lx.advance.2.peek 0 = '-'
  · rw [if_pos hc, if_pos hc]
    exact exponent_digits_with_keep _ _ _
  · rw [if_neg hc, if_neg hc]
    exact exponent_digits_with_keep _ _ _

theorem float_literal_with_keep (stold_ok : List Char → Bool) (lx : Lexer) (raw : List Char)
    (b : Bool) :
    NumberHandler.float_literal stold_ok (lx.with_keep b) raw =
      (NumberHandler.float_literal stold_ok lx raw).with_keep b := by
  unfold NumberHandler.float_literal
  rw [ite_with_keep]
  rfl

theorem exponent_float_with_keep (stold_ok : List Char → Bool) (lx : Lexer)
    (raw : List Char) (b : Bool) :
    NumberHandler.exponent_float stold_ok (lx.with_keep b) raw =
      (NumberHandler.exponent_float stold_ok lx raw).with_keep b := by
  unfold NumberHandler.exponent_float
  rw [exponent_with_keep]
  cases NumberHandler.exponent lx raw with
  | error e => rfl
  | ok x => exact float_literal_with_keep stold_ok _ _ _

theorem fraction_tail_with_keep (stold_ok : List Char → Bool) (lx : Lexer)
    (raw : List Char) (b : Bool) :
    NumberHandler.fraction_tail stold_ok (lx.with_keep b) raw =
      (NumberHandler.fraction_tail stold_ok lx raw).with_keep b := by
  unfold NumberHandler.fraction_tail
  have h2 : (lx.with_keep b).peek 0 = lx.peek 0 := rfl
  rw [h2, ite_with_keep, exponent_float_with_keep, float_literal_with_keep]

theorem number_scan_with_keep (stold_ok : List Char → Bool) (lx : Lexer) (b : Bool) :
    NumberHandler.scan stold_ok (lx.with_keep b) =
      (NumberHandler.scan stold_ok lx).with_keep b := by
  unfold NumberHandler.scan
  have h1 : (lx.with_keep b).current_char = lx.current_char := rfl
  rw [h1, Lexer.consume_while_with_keep, Lexer.retreat_one_with_keep,
    Lexer.consume_while_with_keep]
  dsimp only
  have h2 (n : Nat) : ((lx.retreat_one.consume_while [] Char.isDigit).1.with_keep b).peek n =
      (lx.retreat_one.consume_while [] Char.isDigit).1.peek n := rfl
  rw [h2 0, h2 1, Lexer.advance_with_keep]
  dsimp only
  rw [Lexer.consume_while_with_keep]
  dsimp only
  rw [ite_with_keep, ite_with_keep, ite_with_keep, fraction_tail_with_keep,
    fraction_tail_with_keep, exponent_float_with_keep]
  cases NumberHandler.stoll (lx.retreat_one.consume_while [] Char.isDigit).2 with
  | none => rfl
  | some vi => rfl

theorem handler_scan_with_keep (stold_ok : List Char → Bool) (k : Option HandlerKind)
    (hk : k ≠ some HandlerKind.Slash) (lx : Lexer) (b : Bool) :
    Handler.scan stold_ok k (lx.with_keep b) = (Handler.scan stold_ok k lx).with_keep b := by
  match k with
  | none => rfl
  | some HandlerKind.Whitespace =>
    show WhitespaceHandler.scan (lx.with_keep b) = (WhitespaceHandler.scan lx).with_keep b
    unfold WhitespaceHandler.scan
    have h1 : (lx.with_keep b).src_ = lx.src_ := rfl
    have h2 : (lx.with_keep b).current_ = lx.current_ := rfl
    rw [h1, h2, whitespace_loop_with_keep]
    rfl
  | some HandlerKind.Newline => rfl
  | some HandlerKind.Identifier => exact identifier_scan_with_keep lx b
  | some HandlerKind.Number => exact number_scan_with_keep stold_ok lx b
  | some HandlerKind.String => exact string_scan_with_keep lx b
  | some HandlerKind.Char => exact char_scan_with_keep lx b
  | some HandlerKind.Slash => exact absurd rfl hk
  | some HandlerKind.Operator => exact operator_scan_with_keep lx b
  | some HandlerKind.Punct => rfl

theorem tokenize_step_with_keep (stold_ok : List Char → Bool) (lx : Lexer) (b : Bool) :
    tokenize_step stold_ok (lx.with_keep b) = (tokenize_step stold_ok lx).with_keep b := by
  unfold tokenize_step
  have h1 : (lx.with_keep b).mark = lx.mark.with_keep b := rfl
  rw [h1, Lexer.advance_with_keep]
  exact handler_scan_with_keep stold_ok _ (register_defaults_not_slash _) _ b

theorem tokenize_loop_with_keep (stold_ok : List Char → Bool) (fuel : Nat) (lx : Lexer)
    (tokens : List Token) (b : Bool) :
    tokenize_loop stold_ok fuel (lx.with_keep b) tokens =
      tokenize_loop stold_ok fuel lx tokens := by
  induction fuel generalizing lx tokens with
  | zero => rfl
  | succ n ih =>
    unfold tokenize_loop
    have h1 : (lx.with_keep b).is_at_end = lx.is_at_end := rfl
    rw [h1, tokenize_step_with_keep]
    by_cases hc : lx.is_at_end = true
    · rw [if_pos hc, if_pos hc]
      rfl
    · rw [if_neg hc, if_neg hc]
      cases tokenize_step stold_ok lx with
      | error e => rfl
      | ok r => exact ih _ _

theorem producible_not_comment (t : Token) (h : Producible t) :
    t.type ≠ TokenType.COMMENT := by
  cases h <;> intro hc <;> cases hc

/-- C28. With the table of `register_defaults`, `tokenize` gives for a source the same
result with `keep_comments` set and unset, be it an error or a token sequence, and no
token of a returned sequence is a COMMENT token. -/
theorem tokenize_ignores_keep_comments (stold_ok : List Char → Bool) (src : List Char) :
    tokenize stold_ok src true = tokenize stold_ok src false ∧
    ∀ keep_comments toks, tokenize stold_ok src keep_comments = some (.ok toks) →
      ∀ t ∈ toks, t.type ≠ TokenType.COMMENT := by
  refine ⟨?_, ?_⟩
  · unfold tokenize
    exact tokenize_loop_with_keep stold_ok src.length (Lexer.init src false) [] true
  · intro keep_comments toks h t ht
    rcases tokenize_producible stold_ok src keep_comments toks h t ht with hp | ⟨l, c, rfl⟩
    · exact producible_not_comment t hp
    · intro hc
      cases hc

theorem tokenize_ignores_keep_comments_witness :
    tokenize stold_any "a /* b */".toList true = tokenize stold_any "a /* b */".toList false ∧
    ∀ keep_comments toks,
      tokenize stold_any "a /* b */".toList keep_comments = some (.ok toks) →
        ∀ t ∈ toks, t.type ≠ TokenType.COMMENT :=
  tokenize_ignores_keep_comments stold_any "a /* b */".toList

end Ovum
